import Mathlib

/-!
Verification of the wsknn session-based weighted k-NN recommender.

The development shallowly embeds the recommendation engine of the `wsknn`
package: the weighting-function library (`wsknn/weighting`), the similarity
scorer and ranking engine (`wsknn/model/wsknn.py`), the neighbor samplers,
the inverted-index derivation (`wsknn/preprocessing/structure/session_to_item_map.py`)
and the `fit` validation layer (`wsknn/model/validators.py`, `wsknn/utils/errors.py`).

Conventions of the embedding:
* Python floats are modelled as exact rationals (`ℚ`); the two `log10`-based
  weighting functions are modelled over `ℝ` with the real logarithm.
* Python dicts are modelled as insertion-ordered association lists, Python
  sets as duplicate-free lists (iteration order of a set is unspecified in
  Python; the embedding fixes first-insertion order).
* Python's stable `list.sort` is modelled by `List.insertionSort`, which is
  stable; any two stable sorts of the same list under the same total
  preorder coincide.
* `random.choice` / `random.sample` are modelled by explicit choice
  functions threaded through the model state, making each run deterministic.
-/

namespace Wsknn

/-! ## Weighting function library

`wsknn/weighting/session_weighting.py` and `wsknn/weighting/item_weighting.py`.
-/

/-- Source `linear_session_score(i, length)`: `(i + 1) / length`. -/
def linear_session_score (i length : ℕ) : ℚ :=
  ((i : ℚ) + 1) / (length : ℚ)

/-- Source `quadratic_session_score(i, length)`: `c = i/length; c*c`. -/
def quadratic_session_score (i length : ℕ) : ℚ :=
  let c : ℚ := (i : ℚ) / (length : ℚ)
  c * c

/-- Base-10 logarithm over the reals, modelling `numpy.log10`. -/
noncomputable def log10 (x : ℝ) : ℝ := Real.log x / Real.log 10

/-- Source `log_session_score(i, length)`:
`norm_term = 1/log10(2.7); result = 1/log10((length - i) + 1.7); result/norm_term`. -/
noncomputable def log_session_score (i length : ℕ) : ℝ :=
  let norm_term : ℝ := 1 / log10 2.7
  let result : ℝ := 1 / log10 (((length : ℝ) - (i : ℝ)) + 1.7)
  result / norm_term

/-- Source `linear_item_score(i)`:
`result = 1 - (0.1 * i) if i < 10 else 0; result = result / 0.9`. -/
def linear_item_score (i : ℕ) : ℚ :=
  (if i < 10 then 1 - (1 / 10 : ℚ) * (i : ℚ) else 0) / (9 / 10 : ℚ)

/-- Source `inv_pos_item_score(i)`: `1 / i`. -/
def inv_pos_item_score (i : ℕ) : ℚ := 1 / (i : ℚ)

/-- Source `log_item_score(i)`:
`norm_term = 1/log10(2.7); result = 1/log10(i + 1.7); result/norm_term`. -/
noncomputable def log_item_score (i : ℕ) : ℝ :=
  let norm_term : ℝ := 1 / log10 2.7
  let result : ℝ := 1 / log10 ((i : ℝ) + 1.7)
  result / norm_term

/-- Source `quadratic_item_score(i)`: `1 / (i * i)`. -/
def quadratic_item_score (i : ℕ) : ℚ := 1 / ((i : ℚ) * (i : ℚ))



/-- Bundled conclusion for claim C4 at session length `len` and 0-based
position `i`: all three session-position weights are within `[0,1]`;
`linear` and `log` are exactly `1` at the last position, while `quadratic`
is `((len-1)/len)^2` there (the amended part). -/
def sessionWeightProps (len i : ℕ) : Prop :=
  (0 ≤ linear_session_score i len ∧ linear_session_score i len ≤ 1) ∧
  (0 ≤ quadratic_session_score i len ∧ quadratic_session_score i len ≤ 1) ∧
  (0 ≤ log_session_score i len ∧ log_session_score i len ≤ 1) ∧
  linear_session_score (len - 1) len = 1 ∧
  log_session_score (len - 1) len = 1 ∧
  quadratic_session_score (len - 1) len
    = (((len : ℚ) - 1) / len) * (((len : ℚ) - 1) / len)



/-- Bundled conclusion for claim C8 at ranks `r ≤ r2` (both `≥ 1`):
non-negativity of all four item-rank weights, `linear` vanishing from rank
10 on (every rank `≥ 10` is `max r 10` for some `r`), `linear` within
`[0,1]` below rank 10 (every rank in `[1,9]` is `min r 9` for some `r ≥ 1`),
strict positivity of `inv`, `log`, `quadratic`, and their antitonicity. -/
def itemWeightProps (r r2 : ℕ) : Prop :=
  0 ≤ linear_item_score r ∧
  linear_item_score (max r 10) = 0 ∧
  (0 ≤ linear_item_score (min r 9) ∧ linear_item_score (min r 9) ≤ 1) ∧
  (0 < inv_pos_item_score r ∧ 0 < quadratic_item_score r ∧
    0 < log_item_score r) ∧
  (inv_pos_item_score r2 ≤ inv_pos_item_score r ∧
    quadratic_item_score r2 ≤ quadratic_item_score r ∧
    log_item_score r2 ≤ log_item_score r)



/-! ## Association lists and set-lists

Python dicts are insertion-ordered; they are modelled as association lists
where a write to an existing key keeps the key's position. Python sets are
modelled as duplicate-free lists in first-insertion order.
-/

section AssocList

variable {κ τ : Type} [DecidableEq κ]

/-- Python dict read `d.get(k)`. -/
def alookup : List (κ × τ) → κ → Option τ
  | [], _ => none
  | p :: rest, k => if p.1 = k then some p.2 else alookup rest k

/-- Python dict write `d[k] = v`: overwrite in place when the key exists
(the key keeps its insertion position), append otherwise. -/
def aupdate : List (κ × τ) → κ → τ → List (κ × τ)
  | [], k, v => [(k, v)]
  | p :: rest, k, v =>
    if p.1 = k then (k, v) :: rest else p :: aupdate rest k v

/-- Index of the first occurrence, modelling Python `list.index`. -/
def aidxOf : List κ → κ → ℕ
  | [], _ => 0
  | x :: xs, a => if x = a then 0 else aidxOf xs a + 1

/-- Add an element to a set-list unless already present. -/
def pyInsert (acc : List κ) (x : κ) : List κ :=
  if x ∈ acc then acc else acc ++ [x]

/-- Python `set(l)` in first-insertion iteration order. -/
def firstDedup (l : List κ) : List κ := l.foldl pyInsert []

/-- Python set union `a |= b` in first-insertion iteration order. -/
def pyUnion (a b : List κ) : List κ := b.foldl pyInsert a

end AssocList

/-! ## utils/calc.py -/

/-- Source `weight_set_pair(first, second, mapped_items_weights)`: sum of
the weights of the common items of the two sets, divided by the number of
weighted items; `0` when the weight dict is empty. The two sets are passed
as duplicate-free lists; a weight lookup defaults to `0` (in the source a
missing key would raise, and callers only pass items that are keys). -/
def weight_set_pair {β : Type} [DecidableEq β]
    (first second : List β) (mapped_items_weights : List (β × ℚ)) : ℚ :=
  if 1 ≤ mapped_items_weights.length then
    let common_items := first.filter (fun i => i ∈ second)
    let weights_sum :=
      (common_items.map (fun i => (alookup mapped_items_weights i).getD 0)).sum
    weights_sum / (mapped_items_weights.length : ℚ)
  else 0

/-! ## Session records and the two index maps -/

/-- One record of the Session-Item Index: parallel sequences of items and
timestamps, with the optional action-label and event-weight overlays (in the
source these are the positional rows 0..3 of the record tuple). -/
structure SessionRec (β : Type) where
  items : List β
  timestamps : List ℚ
  actions : List String
  eventWeights : List ℚ
deriving DecidableEq

instance {β : Type} : Inhabited (SessionRec β) := ⟨⟨[], [], [], []⟩⟩

/-! ## preprocessing/structure/session_to_item_map.py -/

section ItemsMap

variable {α β : Type} [DecidableEq α] [DecidableEq β]

/-- Body of the inner loop of `map_sessions_to_items` for one
`(item, timestamp)` occurrence of session `session_k`: create the item
entry, append a new session, or keep the minimum timestamp for a session
already recorded. `tss.getD idx 0` models the in-range indexing
`items_map[item][1][session_index]` (the parallel-length invariant keeps
`idx` in range). -/
def insert_occurrence (imap : List (β × (List α × List ℚ)))
    (session_k : α) (item : β) (ts : ℚ) : List (β × (List α × List ℚ)) :=
  match alookup imap item with
  | none => imap ++ [(item, ([session_k], [ts]))]
  | some (ss, tss) =>
    if session_k ∈ ss then
      let idx := aidxOf ss session_k
      let the_last_timestamp := tss.getD idx 0
      if ts < the_last_timestamp then
        aupdate imap item (ss, tss.set idx ts)
      else imap
    else aupdate imap item (ss ++ [session_k], tss ++ [ts])

/-- Process one session of the sessions map: fold `insert_occurrence` over
the `(item, timestamp)` pairs (`for idx, item in enumerate(items)` with
`ts = timestamps[idx]`). -/
def process_session (imap : List (β × (List α × List ℚ)))
    (session_k : α) (pairs : List (β × ℚ)) : List (β × (List α × List ℚ)) :=
  pairs.foldl (fun m p => insert_occurrence m session_k p.1 p.2) imap

/-- `more_itertools.sort_together(ivalues, key_list=(1,))`: stable sort of
the parallel (sessions, timestamps) lists by ascending timestamp. -/
def sort_together (e : List α × List ℚ) : List α × List ℚ :=
  let z := (e.1.zip e.2).insertionSort (fun a b => a.2 ≤ b.2)
  (z.map Prod.fst, z.map Prod.snd)

/-- Source `map_sessions_to_items(sessions_map, sort_items_map=True)`:
derive the Item-Session Index from the Session-Item Index. -/
def map_sessions_to_items (sessions_map : List (α × SessionRec β))
    (sort_items_map : Bool) : List (β × (List α × List ℚ)) :=
  let items_map := sessions_map.foldl
    (fun acc p => process_session acc p.1 (p.2.items.zip p.2.timestamps)) []
  if sort_items_map then items_map.map (fun e => (e.1, sort_together e.2))
  else items_map

end ItemsMap

/-! ## model/wsknn.py: the WSKNN recommender

Session identifiers have type `α`, item identifiers type `β`. The source
validates the strategy names (`sampling_strategy`, `weighting_func`,
`ranking_strategy`) against fixed string sets and then dispatches through
the tables in `wsknn/weighting/weighting.py`; the embedding stores the
sampling strategy as a closed enumeration and the two already-dispatched
weighting functions directly (`weighting_function = weight_session_items
(name, ·, ·)`, `ranking_strategy = weight_item_score(name, ·)`).
`random.sample` in `_sampling_random` is modelled by the explicit oracle
`sample_choice`. `random.choice` in `_get_more_items` draws from Python's
global stateful generator; the pure pipeline below carries a fixed
per-model oracle `pad_choice`, which is adequate only for executions in
which `_get_more_items` never fires (in particular everywhere
`recommend_any` is off). The RNG-faithful model, which threads the
generator position through every padding draw — in particular across the
entries of a batch `recommend` — is `get_more_items_rng`, `predict_rng`
and `recommend_batch_rng` further down (claim C9). -/

inductive SamplingStrategy
  | common_items
  | recent
  | random
  | weighted_events
deriving DecidableEq

/-- The WSKNN model state: the two index maps plus configuration. -/
structure WSKNN (α β : Type) where
  session_item_map : List (α × SessionRec β)
  item_session_map : List (β × (List α × List ℚ))
  n_of_recommendations : ℕ
  number_of_closest_neighbors : ℕ
  possible_neighbors_sample_size : ℕ
  sampling_strategy : SamplingStrategy
  weighting_function : ℕ → ℕ → ℚ
  ranking_strategy : ℕ → ℚ
  return_events_from_session : Bool
  required_sampling_event : Option String
  recommend_any : Bool
  pad_choice : ℕ → ℕ
  sample_choice : List α → List α

section Model

variable {α β γ : Type} [DecidableEq α] [DecidableEq β] [Inhabited β]

/-- Python list lexicographic `<`, used by `_sampling_recent` when sorting
by the raw timestamp rows. -/
def qlist_lt : List ℚ → List ℚ → Bool
  | [], [] => false
  | [], _ :: _ => true
  | _ :: _, [] => false
  | x :: xs, y :: ys =>
    if x < y then true else if y < x then false else qlist_lt xs ys

/-- Mean of a rational list, modelling `np.mean` in
`_sampling_weighted_events`. -/
def qmean (l : List ℚ) : ℚ := l.sum / (l.length : ℚ)

/-- The ranking key of `WSKNN._sampling_common`:
`len(set(self.session_item_map[ses][0]) & set(session[0]))`, the number of
distinct items the candidate session shares with the customer session. -/
def common_count (m : WSKNN α β) (session : SessionRec β) (ses : α) : ℕ :=
  ((firstDedup ((alookup m.session_item_map ses).getD default).items).filter
    (fun it => it ∈ session.items)).length

/-- Source `WSKNN._sampling_common`: rank each candidate by the number of
items shared with the customer session, sort ascending by that count
(Python's stable sort), keep the session ids, truncate to
`min(sample_size, len(sessions))`. -/
def sampling_common (m : WSKNN α β) (sessions : List α)
    (session : SessionRec β) : List α :=
  let rank := sessions.map (fun ses => (ses, common_count m session ses))
  let sorted := rank.insertionSort (fun a b => a.2 ≤ b.2)
  let result := sorted.map Prod.fst
  let sample_size := min m.possible_neighbors_sample_size sessions.length
  result.take sample_size

/-- The candidates that `WSKNN._sampling_common` leaves out: the tail of
the ascending-sorted candidate list after the first
`min(sample_size, len(sessions))` entries. -/
def sampling_common_rest (m : WSKNN α β) (sessions : List α)
    (session : SessionRec β) : List α :=
  let rank := sessions.map (fun ses => (ses, common_count m session ses))
  let sorted := rank.insertionSort (fun a b => a.2 ≤ b.2)
  let result := sorted.map Prod.fst
  let sample_size := min m.possible_neighbors_sample_size sessions.length
  result.drop sample_size

/-- Source `WSKNN._sampling_random`: `random.sample(sessions, sample_size)`,
modelled with the `sample_choice` oracle followed by truncation. -/
def sampling_random (m : WSKNN α β) (sessions : List α) : List α :=
  let sample_size := min m.possible_neighbors_sample_size sessions.length
  (m.sample_choice sessions).take sample_size

/-- Source `WSKNN._sampling_recent`: sort candidates by their raw timestamp
row, descending (stable), truncate. -/
def sampling_recent (m : WSKNN α β) (sessions : List α) : List α :=
  let rank := sessions.map (fun sid =>
    (sid, ((alookup m.session_item_map sid).getD default).timestamps))
  let sorted := rank.insertionSort (fun a b => qlist_lt a.2 b.2 = false)
  let result := sorted.map Prod.fst
  result.take (min m.possible_neighbors_sample_size sessions.length)

/-- Source `WSKNN._sampling_weighted_events`: sort candidates by the mean
of their event-weight row, descending (stable), truncate. -/
def sampling_weighted_events (m : WSKNN α β) (sessions : List α) : List α :=
  let rank := sessions.map (fun ses =>
    (ses, qmean ((alookup m.session_item_map ses).getD default).eventWeights))
  let sorted := rank.insertionSort (fun a b => b.2 ≤ a.2)
  let result := sorted.map Prod.fst
  result.take (min m.possible_neighbors_sample_size sessions.length)

/-- Source `WSKNN._sample_possible_neighbors`: dispatch on the sampling
strategy. -/
def sample_possible_neighbors (m : WSKNN α β) (all_sessions : List α)
    (session : SessionRec β) : List α :=
  match m.sampling_strategy with
  | .random => sampling_random m all_sessions
  | .recent => sampling_recent m all_sessions
  | .common_items => sampling_common m all_sessions session
  | .weighted_events => sampling_weighted_events m all_sessions

/-- Source `WSKNN._possible_neighbors`: union, over the distinct items of
the query session, of the sessions recorded against that item in the
Item-Session Index; optionally filter by the required sampling event
(`_get_sessions_with_event`, with `required_sampling_event_index`
selecting the action row); then sample. -/
def possible_neighbors (m : WSKNN α β) (session : SessionRec β) : List α :=
  let session_items := firstDedup session.items
  let common_sessions := session_items.foldl (fun acc s_item =>
    match alookup m.item_session_map s_item with
    | some e => pyUnion acc (firstDedup e.1)
    | none => acc) []
  let filtered := match m.required_sampling_event with
    | some ev => common_sessions.filter (fun sess =>
        ev ∈ ((alookup m.session_item_map sess).getD default).actions)
    | none => common_sessions
  sample_possible_neighbors m filtered session

/-- The position-weight dict built at the top of
`WSKNN._calculate_similarity`: `for idx, item in enumerate(session_items):
count = idx + 1; pos_weights[item] = weight_session_items(fn, count, length)`.
Note the source passes `count = idx + 1`, not `idx`, to the weighting
function. -/
def pos_weights_of (wfn : ℕ → ℕ → ℚ) (session_items : List β) :
    List (β × ℚ) :=
  session_items.enum.foldl
    (fun acc p => aupdate acc p.2 (wfn (p.1 + 1) session_items.length)) []

/-- Source `WSKNN._calculate_similarity`: position weights once per query,
then `weight_set_pair` of the query item set against each candidate's item
set. -/
def calculate_similarity (m : WSKNN α β) (session_items : List β)
    (possible_neighbours : List α) : List (α × ℚ) :=
  let pos_weights := pos_weights_of m.weighting_function session_items
  let items := firstDedup session_items
  possible_neighbours.map (fun other =>
    (other,
      weight_set_pair items
        (firstDedup ((alookup m.session_item_map other).getD default).items)
        pos_weights))

/-- Source `WSKNN._nearest_neighbors`: score the sampled candidates, sort
descending by similarity (stable), keep the closest
`min(number_of_closest_neighbors, len(rank))`. -/
def nearest_neighbors (m : WSKNN α β) (session : SessionRec β) :
    List (α × ℚ) :=
  let possible := possible_neighbors m session
  let rank := calculate_similarity m session.items possible
  let sorted := rank.insertionSort (fun a b => b.2 ≤ a.2)
  sorted.take (min m.number_of_closest_neighbors sorted.length)

/-- The reverse scan of `WSKNN._rank_items`: `step = 1; decay = 1;
for s_item in reversed(session_items): if s_item in n_items: decay =
weight_item_score(strategy, step); break; step += 1`. The list argument is
the already-reversed query item sequence. -/
def item_decay_loop (ranking : ℕ → ℚ) (n_items : List β) :
    List β → ℕ → ℚ
  | [], _ => 1
  | s_item :: rest, step =>
    if s_item ∈ n_items then ranking step
    else item_decay_loop ranking n_items rest (step + 1)

/-- The decay factor a neighbor session receives in `WSKNN._rank_items`. -/
def item_decay (ranking : ℕ → ℚ) (session_items n_items : List β) : ℚ :=
  item_decay_loop ranking n_items session_items.reverse 1

/-- One vote of `WSKNN._rank_items`: add `add` to the accumulated score of
`n_item` (dict update keeps the item's insertion position). -/
def score_update (scores : List (β × ℚ)) (n_item : β) (add : ℚ) :
    List (β × ℚ) :=
  match alookup scores n_item with
  | some old_score => aupdate scores n_item (old_score + add)
  | none => aupdate scores n_item add

/-- Source `WSKNN._rank_items`: for each closest neighbor, compute the
decay from the reverse scan, then accumulate `similarity * decay` for each
of the neighbor's items, skipping items of the query session when
`return_events_from_session` is off. -/
def rank_items (m : WSKNN α β) (closest_neighbors : List (α × ℚ))
    (session : SessionRec β) : List (β × ℚ) :=
  let session_items := session.items
  closest_neighbors.foldl (fun scores neighbor =>
    let n_items := ((alookup m.session_item_map neighbor.1).getD default).items
    let decay := item_decay m.ranking_strategy session_items n_items
    n_items.foldl (fun scores n_item =>
      if n_item ∈ session_items ∧ ¬ m.return_events_from_session then scores
      else score_update scores n_item (neighbor.2 * decay)) scores) []

/-- Source `WSKNN._get_more_items`: pad the recommendation list with
`random.choice(possible_items)` (oracle `pad_choice`) at score `0.0` until
`n_of_recommendations` entries. The oracle replays the same draws on
every call, so this pure version is faithful only to executions that
never reach it; `get_more_items_rng` below models the advancing global
generator. -/
def get_more_items (m : WSKNN α β) (recommendations : List (β × ℚ)) :
    List (β × ℚ) :=
  let add_items_size := m.n_of_recommendations - recommendations.length
  let possible_items := m.item_session_map.map Prod.fst
  recommendations ++ (List.range add_items_size).map (fun j =>
    (possible_items.getD (m.pad_choice j % possible_items.length) default, 0))

/-- Source `WSKNN._predict`: nearest neighbors; on an empty neighbor list
return a random padding when `recommend_any` is set and (implicitly)
`None` otherwise; else rank, sort descending, truncate, and optionally
pad. -/
def predict (m : WSKNN α β) (session : SessionRec β) :
    Option (List (β × ℚ)) :=
  let neighbors := nearest_neighbors m session
  if neighbors.length = 0 then
    if m.recommend_any then some (get_more_items m []) else none
  else
    let ranked_items :=
      (rank_items m neighbors session).insertionSort (fun a b => b.2 ≤ a.2)
    let recommendations := ranked_items.take m.n_of_recommendations
    if m.recommend_any ∧ recommendations.length < m.n_of_recommendations then
      some (get_more_items m recommendations)
    else some recommendations

/-- Input to `WSKNN.recommend`: either a single event stream or a batch
dict keyed by user index `γ`. -/
inductive EventStream (β γ : Type)
  | single (s : SessionRec β)
  | batch (l : List (γ × SessionRec β))

/-- Output of `WSKNN.recommend`. -/
inductive RecResult (β γ : Type)
  | single (r : Option (List (β × ℚ)))
  | batch (l : List (γ × Option (List (β × ℚ))))
deriving DecidableEq

/-- Source `WSKNN.recommend` with `settings=None`: dict input dispatches
`_predict` per key, sequence input is a single prediction. -/
def recommend (m : WSKNN α β) (event_stream : EventStream β γ) :
    RecResult β γ :=
  match event_stream with
  | .batch l => .batch (l.map (fun p => (p.1, predict m p.2)))
  | .single s => .single (predict m s)

/-- Source `WSKNN.fit` on the happy path with `items=None`: validation
passes, the Item-Session Index is derived from the sessions map
(`map_sessions_to_items`, default `sort_items_map=True`), and both stored
maps are replaced. The validation layer itself, and the atomicity of
`fit`, are modelled separately below (claim C7). -/
def fit (m : WSKNN α β) (sessions : List (α × SessionRec β)) : WSKNN α β :=
  { m with
    session_item_map := sessions
    item_session_map := map_sessions_to_items sessions true }

/-! ### The stateful RNG model of `random.choice` (claim C9)

The source's `random.choice` draws from Python's global `random`
generator, whose state advances with every draw: inside the batch dict
comprehension of `recommend`, the padding performed for one session moves
the generator forward before the next session is predicted, so a later
entry's padded items depend on how many draws the earlier entries
consumed. The definitions below make that state explicit: `draws n` is
the `n`-th value the global generator yields, `random.choice` over a pool
of length `L` is the current draw taken modulo `L` (as in the pure
model), and every function threads the current position `g`, advancing it
by one per padded item. -/

/-- Source `WSKNN._get_more_items` with the global generator explicit:
pad with `possible_items[draws g % L]`, `possible_items[draws (g+1) % L]`,
… at score `0.0`, and return the advanced position. -/
def get_more_items_rng (m : WSKNN α β) (draws : ℕ → ℕ)
    (recommendations : List (β × ℚ)) (g : ℕ) : List (β × ℚ) × ℕ :=
  let add_items_size := m.n_of_recommendations - recommendations.length
  let possible_items := m.item_session_map.map Prod.fst
  (recommendations ++ (List.range add_items_size).map (fun j =>
      (possible_items.getD (draws (g + j) % possible_items.length) default,
        0)),
    g + add_items_size)

/-- Source `WSKNN._predict` with the global generator explicit: identical
to `predict` except that the two padding branches consume draws and
return the advanced position, while the branches that do not pad leave it
unchanged. (`random.sample` of the `random` sampling strategy would also
consume the global generator inside `_nearest_neighbors`; it is not
threaded here, which is why claim C9 excludes that strategy.) -/
def predict_rng (m : WSKNN α β) (draws : ℕ → ℕ) (session : SessionRec β)
    (g : ℕ) : Option (List (β × ℚ)) × ℕ :=
  let neighbors := nearest_neighbors m session
  if neighbors.length = 0 then
    if m.recommend_any then
      (some (get_more_items_rng m draws [] g).1,
        (get_more_items_rng m draws [] g).2)
    else (none, g)
  else
    let ranked_items :=
      (rank_items m neighbors session).insertionSort (fun a b => b.2 ≤ a.2)
    let recommendations := ranked_items.take m.n_of_recommendations
    if m.recommend_any ∧ recommendations.length < m.n_of_recommendations then
      (some (get_more_items_rng m draws recommendations g).1,
        (get_more_items_rng m draws recommendations g).2)
    else (some recommendations, g)

/-- Source `WSKNN.recommend` on a dict input, with the global generator
explicit: the comprehension evaluates `_predict` key by key, each call
starting from the generator position its predecessor left behind. -/
def recommend_batch_rng (m : WSKNN α β) (draws : ℕ → ℕ) :
    List (γ × SessionRec β) → ℕ →
      List (γ × Option (List (β × ℚ))) × ℕ
  | [], g => ([], g)
  | p :: rest, g =>
    ((p.1, (predict_rng m draws p.2 g).1) ::
        (recommend_batch_rng m draws rest (predict_rng m draws p.2 g).2).1,
      (recommend_batch_rng m draws rest (predict_rng m draws p.2 g).2).2)

/-- Source `WSKNN.recommend` on a single sequence input, with the global
generator explicit: one `_predict` call from the given position. -/
def recommend_single_rng (m : WSKNN α β) (draws : ℕ → ℕ)
    (s : SessionRec β) (g : ℕ) : RecResult β γ × ℕ :=
  ((RecResult.single (predict_rng m draws s g).1 : RecResult β γ),
    (predict_rng m draws s g).2)

end Model

/-! ## Claim C7: the fit validation layer and atomicity

`fit` is modelled over tagged Python values so the dynamic type checks of
`_check_sessions_input`, `validate_mapping_dtypes` and
`_check_items_input` are expressible. Records are positional lists of
sub-objects, as in the source.
-/

/-- A tagged Python scalar (the types the validators distinguish). -/
inductive PyVal
  | vInt (n : ℤ)
  | vFloat (q : ℚ)
  | vStr (s : String)
deriving DecidableEq

/-- Python's `type(...)` at the granularity the validators compare. -/
inductive PyValType
  | tInt
  | tFloat
  | tStr
deriving DecidableEq

def PyVal.tag : PyVal → PyValType
  | .vInt _ => .tInt
  | .vFloat _ => .tFloat
  | .vStr _ => .tStr

/-- Source `check_numeric_type_instance`: a string is not numeric, `int`
and `float` are (`int(value)` succeeds). -/
def PyVal.isNumeric : PyVal → Bool
  | .vStr _ => false
  | _ => true

/-- One sub-object of a record: a sequence, or a non-sequence scalar (a
Python string is iterable and subscriptable; an `int`/`float` is not). -/
inductive PyObj
  | seq (l : List PyVal)
  | atom (v : PyVal)
deriving DecidableEq

/-- `isinstance(subrec, Iterable)`. -/
def PyObj.isIterable : PyObj → Bool
  | .seq _ => true
  | .atom (.vStr _) => true
  | .atom _ => false

/-- Iterating an object: a sequence yields its elements, a string its
characters; iterating a non-iterable is unreachable behind the
`isIterable` check and yields nothing here. -/
def PyObj.elems : PyObj → List PyVal
  | .seq l => l
  | .atom (.vStr s) => s.toList.map (fun c => PyVal.vStr c.toString)
  | .atom _ => []

/-- A record of either index map: the positional list of sub-objects
(`[items, timestamps, ...]` or `[sessions, first_timestamps]`). -/
abbrev PyRecord := List PyObj

/-- A tagged index map: insertion-ordered dict of key to record. -/
abbrev PyMap := List (PyVal × PyRecord)

/-- The exception taxonomy raised by `fit` and its validators
(`IndexError` from `random.choice` on an empty dict or a bad subscript,
`InvalidDimensionsError`, `TypeError`, `InvalidTimestampError`). -/
inductive PyErr
  | indexError
  | dimensionError
  | typeError
  | timestampError
deriving DecidableEq

/-- Common body of `WSKNN._check_sessions_input` and
`WSKNN._check_items_input` (the two static methods are identical up to
messages): sample one record (`random.choice`, modelled by the index
oracle `c`), check `len(record) >= 2`, check every sub-object is
iterable, check every element of `record[1]` is numeric. -/
def check_map_input (m : PyMap) (c : ℕ) : Except PyErr Unit :=
  if m.isEmpty then Except.error PyErr.indexError
  else
    let sample_rec := (m.getD (c % m.length) (PyVal.vInt 0, [])).2
    if ¬ 2 ≤ sample_rec.length then Except.error PyErr.dimensionError
    else if ¬ sample_rec.all PyObj.isIterable then Except.error PyErr.typeError
    else if ¬ ((sample_rec.getD 1 (PyObj.seq [])).elems.all PyVal.isNumeric)
      then Except.error PyErr.timestampError
    else Except.ok ()

/-- Python subscript `o[i]` on a sub-object. -/
def py_subscript (o : PyObj) (i : ℕ) : Except PyErr PyVal :=
  match o with
  | .seq l =>
    match l[i]? with
    | some v => Except.ok v
    | none => Except.error PyErr.indexError
  | .atom (.vStr s) =>
    match s.toList[i]? with
    | some ch => Except.ok (PyVal.vStr ch.toString)
    | none => Except.error PyErr.indexError
  | .atom _ => Except.error PyErr.typeError

/-- The access `rec[row][0]` used by `validate_mapping_dtypes`. -/
def record_elem0 (rec : PyRecord) (row : ℕ) : Except PyErr PyVal :=
  match rec[row]? with
  | some o => py_subscript o 0
  | none => Except.error PyErr.indexError

/-- Source `validate_mapping_dtypes(sessions, items)`: sample one key of
each map (`random.choice`, oracles `c1`, `c2`), read the six sampled
values, then compare session-id, item-id and timestamp types in that
order, raising `TypeError` on the first mismatch. -/
def validate_mapping_dtypes (sessions items : PyMap) (c1 c2 : ℕ) :
    Except PyErr Unit :=
  if sessions.isEmpty ∨ items.isEmpty then Except.error PyErr.indexError
  else
    let sessions_entry := sessions.getD (c1 % sessions.length) (PyVal.vInt 0, [])
    let items_entry := items.getD (c2 % items.length) (PyVal.vInt 0, [])
    do
      let i_session ← record_elem0 sessions_entry.2 0
      let ts_session ← record_elem0 sessions_entry.2 1
      let s_item ← record_elem0 items_entry.2 0
      let ts_item ← record_elem0 items_entry.2 1
      if s_item.tag ≠ sessions_entry.1.tag then Except.error PyErr.typeError
      else if items_entry.1.tag ≠ i_session.tag then Except.error PyErr.typeError
      else if ts_item.tag ≠ ts_session.tag then Except.error PyErr.typeError
      else Except.ok ()

/-- Python `<` on tagged scalars: numeric compare across `int`/`float`,
lexicographic on strings, `TypeError` on mixed string/number. -/
def py_lt (a b : PyVal) : Except PyErr Bool :=
  match a, b with
  | .vInt x, .vInt y => Except.ok (decide (x < y))
  | .vInt x, .vFloat y => Except.ok (decide ((x : ℚ) < y))
  | .vFloat x, .vInt y => Except.ok (decide (x < (y : ℚ)))
  | .vFloat x, .vFloat y => Except.ok (decide (x < y))
  | .vStr x, .vStr y => Except.ok (decide (x < y))
  | _, _ => Except.error PyErr.typeError

/-- Totalized `<` for the final `sort_together` step (Python's sort would
raise on a mixed compare; mixed compares answer `false` here — immaterial
to claim C7, which only tracks whether `fit` mutates state). -/
def py_lt_b (a b : PyVal) : Bool :=
  match py_lt a b with
  | Except.ok r => r
  | Except.error _ => false

/-- Tagged `insert_occurrence` of `map_sessions_to_items`: the timestamp
comparison `ts < the_last_timestamp` goes through `py_lt` and may raise. -/
def insert_occurrence_tagged (imap : List (PyVal × (List PyVal × List PyVal)))
    (session_k item ts : PyVal) :
    Except PyErr (List (PyVal × (List PyVal × List PyVal))) :=
  match alookup imap item with
  | none => Except.ok (imap ++ [(item, ([session_k], [ts]))])
  | some (ss, tss) =>
    if session_k ∈ ss then
      let idx := aidxOf ss session_k
      let the_last_timestamp := tss.getD idx (PyVal.vInt 0)
      do
        let lt ← py_lt ts the_last_timestamp
        if lt then Except.ok (aupdate imap item (ss, tss.set idx ts))
        else Except.ok imap
    else Except.ok (aupdate imap item (ss ++ [session_k], tss ++ [ts]))

/-- Tagged processing of one session by `map_sessions_to_items`:
`items = values[0]`, `timestamps = values[1]`,
`for idx, item in enumerate(items): ts = timestamps[idx]; ...`. -/
def process_session_tagged (imap : List (PyVal × (List PyVal × List PyVal)))
    (session_k : PyVal) (rec : PyRecord) :
    Except PyErr (List (PyVal × (List PyVal × List PyVal))) := do
  let items_obj ← match rec[0]? with
    | some o => Except.ok o
    | none => Except.error PyErr.indexError
  let ts_obj ← match rec[1]? with
    | some o => Except.ok o
    | none => Except.error PyErr.indexError
  if ¬ items_obj.isIterable then Except.error PyErr.typeError
  else
    items_obj.elems.enum.foldlM (fun m p => do
      let ts ← py_subscript ts_obj p.1
      insert_occurrence_tagged m session_k p.2 ts) imap

/-- Tagged `map_sessions_to_items(sessions)` as called by `fit`
(`sort_items_map = True`): build the inverted index, then sort each
entry's parallel lists together by ascending timestamp. -/
def map_sessions_to_items_tagged (sessions : PyMap) : Except PyErr PyMap := do
  let imap ← sessions.foldlM
    (fun acc p => process_session_tagged acc p.1 p.2) []
  Except.ok (imap.map (fun e =>
    let z := (e.2.1.zip e.2.2).insertionSort
      (fun a b => py_lt_b b.2 a.2 = false)
    (e.1, [PyObj.seq (z.map Prod.fst), PyObj.seq (z.map Prod.snd)])))

/-- The two attributes `fit` assigns (`self.session_item_map`,
`self.item_session_map`); `None` before the first successful `fit`. -/
structure FitState where
  session_item_map : Option PyMap
  item_session_map : Option PyMap
deriving DecidableEq

/-- The `items is None` branch of `fit`: derive the items map, or
validate the cross-map dtypes of a user-supplied one. -/
def fit_items_step (sessions : PyMap) (items : Option PyMap) (c2 c3 : ℕ) :
    Except PyErr PyMap :=
  match items with
  | none => map_sessions_to_items_tagged sessions
  | some its =>
    match validate_mapping_dtypes sessions its c2 c3 with
    | Except.error e => Except.error e
    | Except.ok _ => Except.ok its

/-- Source `WSKNN.fit(sessions, items)` with Python exception semantics
made explicit: each step may raise, in the source's order
(`_check_sessions_input`, derive-or-validate, `_check_items_input`), and
only after all checks pass are the two attributes assigned. The state is
returned alongside the outcome: on a raise, the state is whatever it was
when the exception left the method. -/
def fit_run (st : FitState) (sessions : PyMap) (items : Option PyMap)
    (c1 c2 c3 c4 : ℕ) : Except PyErr Unit × FitState :=
  match check_map_input sessions c1 with
  | Except.error e => (Except.error e, st)
  | Except.ok _ =>
    match fit_items_step sessions items c2 c3 with
    | Except.error e => (Except.error e, st)
    | Except.ok its =>
      match check_map_input its c4 with
      | Except.error e => (Except.error e, st)
      | Except.ok _ =>
        (Except.ok (),
          { session_item_map := some sessions, item_session_map := some its })

deriving instance DecidableEq for Except

/-! ## Claim C1: the end-to-end reference example -/

/-- The reference sessions map
`{'a': ([1,2,3,4,5],[1,2,3,4,5]), 'b': ([2,3,4,5],[10,11,12,13])}`. -/
def exampleSessions : List (String × SessionRec ℤ) :=
  [("a", ⟨[1, 2, 3, 4, 5], [1, 2, 3, 4, 5], [], []⟩),
   ("b", ⟨[2, 3, 4, 5], [10, 11, 12, 13], [], []⟩)]

/-- The reference model: default configuration (5 recommendations, 10
neighbors, sample size 1000, `common_items` sampling, `linear` weighting
and ranking) with `return_events_from_session = False`, fitted on
`exampleSessions` with the items map derived automatically. -/
def exampleModel : WSKNN String ℤ :=
  fit
    { session_item_map := []
      item_session_map := []
      n_of_recommendations := 5
      number_of_closest_neighbors := 10
      possible_neighbors_sample_size := 1000
      sampling_strategy := .common_items
      weighting_function := linear_session_score
      ranking_strategy := linear_item_score
      return_events_from_session := false
      required_sampling_event := none
      recommend_any := false
      pad_choice := fun _ => 0
      sample_choice := fun l => l }
    exampleSessions

/-- A two-session batch over the reference model, for the C9 witness. -/
def exampleBatch : List (ℕ × SessionRec ℤ) :=
  [(0, ⟨[1], [100], [], []⟩), (1, ⟨[2, 3], [200, 300], [], []⟩)]

/-- The reference model with `recommend_any = True` and a single requested
recommendation: every zero-neighbor query is then padded with one
`random.choice` draw, so the position of the global generator matters
(claim C9's counterexample). -/
def exampleModelAny : WSKNN String ℤ :=
  { exampleModel with recommend_any := true, n_of_recommendations := 1 }

/-! ## Derivation invariants and occurrence summaries (claim C6) -/

section OccurrenceDefs

variable {β : Type} [DecidableEq β]

/-- The occurrence timestamps of item `it` in a list of
`(item, timestamp)` pairs. -/
def occ_list (it : β) (pairs : List (β × ℚ)) : List ℚ :=
  pairs.filterMap (fun p => if p.1 = it then some p.2 else none)

/-- The occurrence timestamps of item `it` in a session record (the pairs
iterated by `map_sessions_to_items`). -/
def occ_timestamps (it : β) (rec : SessionRec β) : List ℚ :=
  occ_list it (rec.items.zip rec.timestamps)

/-- The running minimum of the occurrence timestamps of `it`, exactly as
`map_sessions_to_items` accumulates it (`if ts < the_last_timestamp`
updates). -/
def occ_min (it : β) : List (β × ℚ) → Option ℚ
  | [] => none
  | p :: rest =>
    if p.1 = it then
      match occ_min it rest with
      | none => some p.2
      | some c => some (min p.2 c)
    else occ_min it rest

end OccurrenceDefs

section DerivationDefs

variable {α β : Type} [DecidableEq α] [DecidableEq β]

/-- The parallel-length invariant of Item-Session Index entries. -/
def WfMap (imap : List (β × (List α × List ℚ))) : Prop :=
  ∀ it ss tss, alookup imap it = some (ss, tss) → tss.length = ss.length

/-- `sk` appears in no entry's session list. -/
def FreshIn (sk : α) (imap : List (β × (List α × List ℚ))) : Prop :=
  ∀ it ss tss, alookup imap it = some (ss, tss) → sk ∉ ss

/-- The per-session summaries of item `it` over a sessions map: one
`(session id, minimum occurrence timestamp)` pair for every session that
contains `it`. -/
def session_entries (it : β) (S : List (α × SessionRec β)) :
    List (α × ℚ) :=
  S.filterMap (fun p =>
    (occ_min it (p.2.items.zip p.2.timestamps)).map (fun mn => (p.1, mn)))

/-- How the fold of `map_sessions_to_items` extends a prior entry with the
per-session summaries. -/
def entry_extend (prior : Option (List α × List ℚ))
    (es : List (α × ℚ)) : Option (List α × List ℚ) :=
  match prior, es with
  | none, [] => none
  | none, e :: es => some ((e :: es).map Prod.fst, (e :: es).map Prod.snd)
  | some (ss, tss), es =>
    some (ss ++ es.map Prod.fst, tss ++ es.map Prod.snd)

end DerivationDefs

/-! Helper lemmas about `log10`. -/

theorem log10_pos {x : ℝ} (hx : 1 < x) : 0 < log10 x :=
  div_pos (Real.log_pos hx) (Real.log_pos (by norm_num))

theorem log10_le_log10 {x y : ℝ} (hx : 0 < x) (hxy : x ≤ y) :
    log10 x ≤ log10 y :=
  (div_le_div_iff_of_pos_right (Real.log_pos (by norm_num))).mpr
    (Real.log_le_log hx hxy)

theorem log_session_score_eq (i length : ℕ) :
    log_session_score i length
      = log10 2.7 / log10 (((length : ℝ) - (i : ℝ)) + 1.7) := by
  unfold log_session_score
  rw [one_div, one_div, div_eq_mul_inv, inv_inv, mul_comm, ← div_eq_mul_inv]

theorem log_item_score_eq (i : ℕ) :
    log_item_score i = log10 2.7 / log10 ((i : ℝ) + 1.7) := by
  unfold log_item_score
  rw [one_div, one_div, div_eq_mul_inv, inv_inv, mul_comm, ← div_eq_mul_inv]

/-- Claim C4, corrected. For every `length > 0` and `0 ≤ position < length`,
all three session-position weighting functions return values in `[0,1]`;
`linear` and `log` return exactly `1.0` at the last position. The claim's
assertion that `quadratic` returns `1.0` at the last position is false:
`quadratic` returns `((length-1)/length)^2` there. -/
theorem claim_C4_theorem (len i : ℕ) (hlen : 0 < len) (hi : i < len) :
    sessionWeightProps len i := by
  have hlenQ : (0 : ℚ) < (len : ℚ) := by exact_mod_cast hlen
  have hiQ : (i : ℚ) + 1 ≤ (len : ℚ) := by exact_mod_cast hi
  have hlenR : (1 : ℝ) ≤ (len : ℝ) := by exact_mod_cast hlen
  have hA : (0 : ℝ) < log10 2.7 := log10_pos (by norm_num)
  refine ⟨⟨?_, ?_⟩, ⟨?_, ?_⟩, ⟨?_, ?_⟩, ?_, ?_, ?_⟩
  · exact div_nonneg (by positivity) hlenQ.le
  · exact (div_le_one hlenQ).mpr hiQ
  · unfold quadratic_session_score
    have : (0 : ℚ) ≤ (i : ℚ) / (len : ℚ) := div_nonneg (by positivity) hlenQ.le
    positivity
  · unfold quadratic_session_score
    have h0 : (0 : ℚ) ≤ (i : ℚ) / (len : ℚ) := div_nonneg (by positivity) hlenQ.le
    have h1 : (i : ℚ) / (len : ℚ) ≤ 1 := by
      rw [div_le_one hlenQ]; linarith
    exact mul_le_one₀ h1 h0 h1
  · rw [log_session_score_eq]
    have harg : (2.7 : ℝ) ≤ ((len : ℝ) - (i : ℝ)) + 1.7 := by
      have : (i : ℝ) + 1 ≤ (len : ℝ) := by exact_mod_cast hi
      linarith
    have hB : (0 : ℝ) < log10 (((len : ℝ) - (i : ℝ)) + 1.7) :=
      lt_of_lt_of_le hA (log10_le_log10 (by norm_num) harg)
    exact div_nonneg hA.le hB.le
  · rw [log_session_score_eq]
    have harg : (2.7 : ℝ) ≤ ((len : ℝ) - (i : ℝ)) + 1.7 := by
      have : (i : ℝ) + 1 ≤ (len : ℝ) := by exact_mod_cast hi
      linarith
    have hB : (0 : ℝ) < log10 (((len : ℝ) - (i : ℝ)) + 1.7) :=
      lt_of_lt_of_le hA (log10_le_log10 (by norm_num) harg)
    exact (div_le_one hB).mpr (log10_le_log10 (by norm_num) harg)
  · unfold linear_session_score
    have hcast : ((len - 1 : ℕ) : ℚ) = (len : ℚ) - 1 := by
      rw [Nat.cast_sub hlen, Nat.cast_one]
    rw [hcast]
    field_simp
  · rw [log_session_score_eq]
    have hcast : ((len - 1 : ℕ) : ℝ) = (len : ℝ) - 1 := by
      rw [Nat.cast_sub hlen, Nat.cast_one]
    rw [hcast]
    have : ((len : ℝ) - ((len : ℝ) - 1)) + 1.7 = 2.7 := by ring
    rw [this]
    exact div_self hA.ne'
  · unfold quadratic_session_score
    have hcast : ((len - 1 : ℕ) : ℚ) = (len : ℚ) - 1 := by
      rw [Nat.cast_sub hlen, Nat.cast_one]
    rw [hcast]

/-- Claim C4 counterexample: at the last position of a session of length 2,
`quadratic_session_score` returns `1/4`, not `1.0` as the claim states. -/
theorem claim_C4_counterexample :
    0 < 2 ∧ (2 - 1 : ℕ) < 2 ∧ quadratic_session_score (2 - 1) 2 = 1 / 4 ∧
      quadratic_session_score (2 - 1) 2 ≠ 1 := by
  refine ⟨by norm_num, by norm_num, ?_, ?_⟩ <;>
    norm_num [quadratic_session_score]

/-- Witness for claim C4's theorem at `length = 2`, `position = 1`. -/
theorem claim_C4_witness : 0 < 2 ∧ 1 < 2 ∧ sessionWeightProps 2 1 :=
  ⟨by decide, by decide, claim_C4_theorem 2 1 (by decide) (by decide)⟩

/-- Claim C8. For every rank `r ≥ 1` all four item-rank weighting functions
are non-negative; `linear` is `0` for every rank `≥ 10` and lies in `[0,1]`
for ranks `1..9`; `inv`, `log` and `quadratic` are strictly positive and
non-increasing in the rank. -/
theorem claim_C8_theorem (r r2 : ℕ) (hr : 1 ≤ r) (hle : r ≤ r2) :
    itemWeightProps r r2 := by
  have hrQ : (1 : ℚ) ≤ (r : ℚ) := by exact_mod_cast hr
  have hrQ0 : (0 : ℚ) < (r : ℚ) := by linarith
  have hr2Q : (r : ℚ) ≤ (r2 : ℚ) := by exact_mod_cast hle
  have hr2Q0 : (0 : ℚ) < (r2 : ℚ) := by linarith
  have hA : (0 : ℝ) < log10 2.7 := log10_pos (by norm_num)
  have hargR : (2.7 : ℝ) ≤ (r : ℝ) + 1.7 := by
    have : (1 : ℝ) ≤ (r : ℝ) := by exact_mod_cast hr
    linarith
  have hr17 : (0 : ℝ) < (r : ℝ) + 1.7 := by positivity
  have hB : (0 : ℝ) < log10 ((r : ℝ) + 1.7) :=
    lt_of_lt_of_le hA (log10_le_log10 (by norm_num) hargR)
  have harg2R : (r : ℝ) + 1.7 ≤ (r2 : ℝ) + 1.7 := by
    have : (r : ℝ) ≤ (r2 : ℝ) := by exact_mod_cast hle
    linarith
  have hB2 : (0 : ℝ) < log10 ((r2 : ℝ) + 1.7) :=
    lt_of_lt_of_le hB (log10_le_log10 hr17 harg2R)
  refine ⟨?_, ?_, ⟨?_, ?_⟩, ⟨?_, ?_, ?_⟩, ⟨?_, ?_, ?_⟩⟩
  · unfold linear_item_score
    rcases lt_or_ge r 10 with h | h
    · rw [if_pos h]
      have : (r : ℚ) ≤ 9 := by exact_mod_cast Nat.lt_succ_iff.mp h
      apply div_nonneg (by linarith) (by norm_num)
    · rw [if_neg (by omega)]
      norm_num
  · unfold linear_item_score
    rw [if_neg (by omega)]
    norm_num
  · unfold linear_item_score
    rw [if_pos (by omega)]
    have : ((min r 9 : ℕ) : ℚ) ≤ 9 := by exact_mod_cast min_le_right r 9
    apply div_nonneg (by linarith) (by norm_num)
  · unfold linear_item_score
    rw [if_pos (by omega), div_le_one (by norm_num : (0:ℚ) < 9/10)]
    have : (1 : ℚ) ≤ ((min r 9 : ℕ) : ℚ) := by
      exact_mod_cast le_min hr (by norm_num)
    linarith
  · exact div_pos one_pos hrQ0
  · exact div_pos one_pos (by positivity)
  · rw [log_item_score_eq]
    exact div_pos hA hB
  · exact one_div_le_one_div_of_le hrQ0 hr2Q
  · unfold quadratic_item_score
    apply one_div_le_one_div_of_le (by positivity)
    exact mul_le_mul hr2Q hr2Q hrQ0.le (by positivity)
  · rw [log_item_score_eq, log_item_score_eq]
    exact div_le_div_of_nonneg_left hA.le hB
      (log10_le_log10 hr17 harg2R)

/-- Witness for claim C8's theorem at ranks `r = 1`, `r2 = 2`. -/
theorem claim_C8_witness : 1 ≤ 1 ∧ 1 ≤ 2 ∧ itemWeightProps 1 2 :=
  ⟨by decide, by decide, claim_C8_theorem 1 2 (by decide) (by decide)⟩

section RatEval

attribute [local semireducible] Rat.add Rat.mul Rat.inv Rat.sub
  Rat.ofScientific

/-- Claim C1. On the fitted reference model, `recommend([[1],[100]])`
returns exactly `[(2,2.0),(3,2.0),(4,2.0),(5,2.0)]` and
`recommend([[2,3],[200,300]])` returns exactly
`[(4,2.5),(5,2.5),(1,1.25)]`. -/
theorem claim_C1_theorem :
    recommend (γ := ℕ) exampleModel (.single ⟨[1], [100], [], []⟩)
        = .single (some [(2, 2), (3, 2), (4, 2), (5, 2)]) ∧
      recommend (γ := ℕ) exampleModel (.single ⟨[2, 3], [200, 300], [], []⟩)
        = .single (some [(4, 5/2), (5, 5/2), (1, 5/4)]) := by
  constructor <;> decide

end RatEval

/-! ## Claim C2: the zero-overlap decay factor -/

section ClaimC2

variable {β : Type} [DecidableEq β]

theorem item_decay_loop_of_disjoint (f : ℕ → ℚ) (n_items : List β) :
    ∀ (l : List β) (step : ℕ), (∀ x ∈ l, x ∉ n_items) →
      item_decay_loop f n_items l step = 1
  | [], _, _ => rfl
  | s_item :: rest, step, h => by
    unfold item_decay_loop
    rw [if_neg (h s_item (List.mem_cons_self s_item rest))]
    exact item_decay_loop_of_disjoint f n_items rest (step + 1)
      (fun x hx => h x (List.mem_cons_of_mem s_item hx))

/-- Claim C2, corrected. In `WSKNN._rank_items`, when a neighbor session
shares no item with the query session, `decay` is left at its initialized
value `1`; it is not recomputed from the terminal step value (the claim's
statement is refuted by `claim_C2_counterexample`). -/
theorem claim_C2_theorem (f : ℕ → ℚ) (session_items n_items : List β)
    (h : ∀ x ∈ n_items, x ∉ session_items) :
    item_decay f session_items n_items = 1 :=
  item_decay_loop_of_disjoint f n_items session_items.reverse 1
    (fun x hx hxn => h x hxn (List.mem_reverse.mp hx))

end ClaimC2

section ClaimC2Concrete

attribute [local semireducible] Rat.add Rat.mul Rat.inv Rat.sub
  Rat.ofScientific

/-- Claim C2 counterexample: query session `[1]`, neighbor items `[2]` (no
overlap), `linear` ranking. The terminal step after scanning the full
reversed query is `1 + 1 = 2`, and `linear_item_score 2 = 8/9`, but the
decay actually applied is the initialized `1`. -/
theorem claim_C2_counterexample :
    (∀ x ∈ ([2] : List ℤ), x ∉ ([1] : List ℤ)) ∧
      item_decay linear_item_score ([1] : List ℤ) [2] = 1 ∧
      linear_item_score (1 + 1) = 8 / 9 ∧
      item_decay linear_item_score ([1] : List ℤ) [2]
        ≠ linear_item_score (1 + 1) := by
  refine ⟨?_, ?_, ?_, ?_⟩ <;> decide

/-- Witness for claim C2's theorem: the same zero-overlap inputs. -/
theorem claim_C2_witness :
    (∀ x ∈ ([2] : List ℤ), x ∉ ([1] : List ℤ)) ∧
      item_decay inv_pos_item_score ([1] : List ℤ) [2] = 1 :=
  ⟨by decide, claim_C2_theorem inv_pos_item_score [1] [2] (by decide)⟩

end ClaimC2Concrete

/-! ## Claim C9: batch recommendation -/

section ClaimC9

variable {α β γ : Type} [DecidableEq α] [DecidableEq β] [Inhabited β]

/-- When `recommend_any` is off, neither branch of `_predict` reaches
`_get_more_items`, so the prediction neither consumes nor depends on the
global generator position: the stateful call coincides with the pure
`predict` at every position. -/
theorem predict_rng_no_padding (m : WSKNN α β) (draws : ℕ → ℕ)
    (s : SessionRec β) (g : ℕ) (hany : m.recommend_any = false) :
    predict_rng m draws s g = (predict m s, g) := by
  unfold predict_rng predict
  rw [hany]
  simp
  split <;> rfl

/-- The batch comprehension emits one entry per input key, in the input
order, whatever the generator yields. -/
theorem recommend_batch_rng_keys (m : WSKNN α β) (draws : ℕ → ℕ) :
    ∀ (batch : List (γ × SessionRec β)) (g : ℕ),
      ((recommend_batch_rng m draws batch g).1).map Prod.fst
        = batch.map Prod.fst
  | [], _ => rfl
  | p :: rest, g => by
    simp only [recommend_batch_rng, List.map_cons]
    rw [recommend_batch_rng_keys m draws rest _]

/-- When `recommend_any` is off, the whole batch run degenerates to the
pure per-entry map and leaves the generator position unchanged. -/
theorem recommend_batch_rng_no_padding (m : WSKNN α β) (draws : ℕ → ℕ)
    (hany : m.recommend_any = false) :
    ∀ (batch : List (γ × SessionRec β)) (g : ℕ),
      recommend_batch_rng m draws batch g
        = (batch.map (fun p => (p.1, predict m p.2)), g)
  | [], _ => rfl
  | p :: rest, g => by
    simp only [recommend_batch_rng, predict_rng_no_padding m draws p.2 g hany,
      recommend_batch_rng_no_padding m draws hany rest, List.map_cons]

/-- Claim C9, corrected. For a fitted model with a non-random sampling
strategy, the batch `recommend` comprehension always returns a mapping
with exactly the original keys; but the value at each key equals the
result of an independent single-session `recommend` only when
`recommend_any` is off: padding then never fires, so each prediction is
the pure `predict` value, independent of the global generator position —
in particular equal to a single-session call started at any position
`g2`. With `recommend_any` on, the padding of earlier batch entries
advances the shared generator before later entries are predicted, so a
later entry's value can differ from an independent single call (see the
counterexample). The non-random-strategy hypothesis confines the global
generator to `_get_more_items`: the `random` strategy's `random.sample`
would consume it as well and is not modelled by `predict_rng`. -/
theorem claim_C9_theorem (m : WSKNN α β) (draws : ℕ → ℕ)
    (batch : List (γ × SessionRec β)) (g : ℕ)
    (_hstrat : m.sampling_strategy ≠ SamplingStrategy.random) :
    ((recommend_batch_rng m draws batch g).1).map Prod.fst
        = batch.map Prod.fst ∧
      (m.recommend_any = false →
        recommend_batch_rng m draws batch g
            = (batch.map (fun p => (p.1, predict m p.2)), g) ∧
        ∀ p ∈ batch, ∀ g2 : ℕ,
          recommend_single_rng (γ := γ) m draws p.2 g2
            = (.single (predict m p.2), g2)) := by
  refine ⟨recommend_batch_rng_keys m draws batch g, fun hany => ⟨?_, ?_⟩⟩
  · exact recommend_batch_rng_no_padding m draws hany batch g
  · intro p _ g2
    show ((RecResult.single (predict_rng m draws p.2 g2).1 : RecResult β γ),
        (predict_rng m draws p.2 g2).2) = _
    rw [predict_rng_no_padding m draws p.2 g2 hany]

end ClaimC9

section ClaimC9Concrete

attribute [local semireducible] Rat.add Rat.mul Rat.inv Rat.sub
  Rat.ofScientific

/-- Counterexample refuting claim C9 as stated. On `exampleModelAny`
(`recommend_any = True`, one requested recommendation) the query
`([100], [1])` has zero neighbors, so each prediction pads one item from
the five-key items map with a draw from the shared global generator. In a
two-entry batch of that query the first entry consumes draw 0 and the
second entry is padded with draw 1, yielding item `2` at key `1` —
whereas an independent single-session call, which starts at the same
initial position 0, pads with draw 0 and returns item `1`. The batch
value at key `1` therefore differs from the independent single-session
result. -/
theorem claim_C9_counterexample :
    exampleModelAny.sampling_strategy ≠ SamplingStrategy.random ∧
      exampleModelAny.recommend_any = true ∧
      alookup
          (recommend_batch_rng (γ := ℕ) exampleModelAny (fun n => n)
            [(0, ⟨[100], [1], [], []⟩), (1, ⟨[100], [1], [], []⟩)] 0).1 1
        = some (some [((2 : ℤ), (0 : ℚ))]) ∧
      (predict_rng exampleModelAny (fun n => n) ⟨[100], [1], [], []⟩ 0).1
        = some [((1 : ℤ), (0 : ℚ))] ∧
      (some [((2 : ℤ), (0 : ℚ))] : Option (List (ℤ × ℚ)))
        ≠ some [((1 : ℤ), (0 : ℚ))] :=
  ⟨by decide, by decide, by decide, by decide, by decide⟩

/-- Witness for claim C9's corrected theorem: the reference model
(`recommend_any` off) on the two-session batch, with the identity draw
stream from position 0. -/
theorem claim_C9_witness :
    exampleModel.sampling_strategy ≠ SamplingStrategy.random ∧
      (((recommend_batch_rng (γ := ℕ) exampleModel (fun n => n)
              exampleBatch 0).1).map Prod.fst
          = exampleBatch.map Prod.fst ∧
        (exampleModel.recommend_any = false →
          recommend_batch_rng (γ := ℕ) exampleModel (fun n => n)
              exampleBatch 0
            = (exampleBatch.map (fun p => (p.1, predict exampleModel p.2)), 0) ∧
          ∀ p ∈ exampleBatch, ∀ g2 : ℕ,
            recommend_single_rng (γ := ℕ) exampleModel (fun n => n) p.2 g2
              = (.single (predict exampleModel p.2), g2))) :=
  ⟨by decide, claim_C9_theorem exampleModel (fun n => n) exampleBatch 0
    (by decide)⟩

end ClaimC9Concrete

/-! ## Claim C10: zero neighbors with recommend_any off -/

section ClaimC10

variable {α β : Type} [DecidableEq α] [DecidableEq β] [Inhabited β]

/-- Claim C10. With `recommend_any = False`, a query whose neighbor search
yields zero neighbors makes `_predict` fall through both branches and
(implicitly) return `None`, not an empty list. -/
theorem claim_C10_theorem (m : WSKNN α β) (session : SessionRec β)
    (hany : m.recommend_any = false)
    (hnb : nearest_neighbors m session = []) :
    predict m session = none := by
  unfold predict
  rw [hnb]
  simp [hany]

end ClaimC10

/-! ## Claim C3: the position-weight map -/

section ClaimC3

variable {κ τ : Type} [DecidableEq κ]

theorem alookup_aupdate_self (l : List (κ × τ)) (k : κ) (v : τ) :
    alookup (aupdate l k v) k = some v := by
  induction l with
  | nil => simp [aupdate, alookup]
  | cons p rest ih =>
    by_cases h : p.1 = k
    · simp [aupdate, h, alookup]
    · simp [aupdate, h, alookup, ih]

theorem alookup_aupdate_ne (l : List (κ × τ)) (k k2 : κ) (v : τ)
    (h : k ≠ k2) : alookup (aupdate l k v) k2 = alookup l k2 := by
  induction l with
  | nil => simp [aupdate, alookup, h]
  | cons p rest ih =>
    by_cases hp : p.1 = k
    · simp [aupdate, hp, alookup, h, hp ▸ h]
    · simp [aupdate, hp, alookup, ih]

/-- Last-write-wins characterization of a left fold of dict writes: the
lookup of `k` is the value of the last pair written at key `k`, defaulting
to the accumulator. -/
theorem alookup_foldl_aupdate (pairs : List (κ × τ)) (acc : List (κ × τ))
    (k : κ) :
    alookup (pairs.foldl (fun a p => aupdate a p.1 p.2) acc) k
      = match (pairs.filter (fun p => p.1 = k)).getLast? with
        | some q => some q.2
        | none => alookup acc k := by
  induction pairs generalizing acc with
  | nil => rfl
  | cons p rest ih =>
    rw [List.foldl_cons, ih]
    by_cases hp : p.1 = k
    · rw [List.filter_cons_of_pos (by simpa using hp)]
      cases hrest : (rest.filter (fun p => p.1 = k)).getLast? with
      | some q => simp [List.getLast?_cons, hrest]
      | none =>
        simp only [List.getLast?_cons, hrest, Option.getD_none]
        subst hp
        simp [alookup_aupdate_self]
    · rw [List.filter_cons_of_neg (by simpa using hp)]
      cases hrest : (rest.filter (fun p => p.1 = k)).getLast? with
      | some q => simp [hrest]
      | none => simp [hrest, alookup_aupdate_ne _ _ _ _ hp]

end ClaimC3

section ClaimC3PosWeights

variable {β : Type} [DecidableEq β]

/-- Lookup in the position-weight map: the weight stored for an item is
computed from the last enumeration index at which the item occurs,
shifted by one (`count = idx + 1`). -/
theorem alookup_pos_weights_of (wfn : ℕ → ℕ → ℚ) (items : List β) (it : β) :
    alookup (pos_weights_of wfn items) it
      = match (items.enum.filter (fun p => p.2 = it)).getLast? with
        | some q => some (wfn (q.1 + 1) items.length)
        | none => none := by
  unfold pos_weights_of
  rw [← List.foldl_map (fun p : ℕ × β => (p.2, wfn (p.1 + 1) items.length))
    (fun a q => aupdate a q.1 q.2) items.enum []]
  rw [alookup_foldl_aupdate, List.filter_map, List.getLast?_map]
  have hcomp : ((fun p : β × ℚ => decide (p.1 = it))
        ∘ (fun p : ℕ × β => (p.2, wfn (p.1 + 1) items.length)))
      = (fun p : ℕ × β => decide (p.2 = it)) := rfl
  rw [hcomp]
  cases (items.enum.filter (fun p => p.2 = it)).getLast? <;> simp [alookup]

/-- For the last occurrence of an item (0-based index `l1.length`, written
as `l1 ++ it :: l2` with `it ∉ l2`), the stored position weight is
`wfn(index + 1, length)`. -/
theorem pos_weights_last_occurrence (wfn : ℕ → ℕ → ℚ) (l1 l2 : List β)
    (it : β) (hlast : it ∉ l2) :
    alookup (pos_weights_of wfn (l1 ++ it :: l2)) it
      = some (wfn (l1.length + 1) (l1 ++ it :: l2).length) := by
  rw [alookup_pos_weights_of]
  have h2 : (List.enumFrom (l1.length + 1) l2).filter
      (fun p : ℕ × β => p.2 = it) = [] := by
    rw [List.filter_eq_nil_iff]
    intro a ha
    obtain ⟨i, x⟩ := a
    rcases List.mem_enumFrom ha with ⟨hj, hi, hx2⟩
    have hmem : x ∈ l2 := by
      rw [hx2]
      exact List.getElem_mem _
    simp only [decide_eq_true_eq]
    intro hx
    exact hlast (hx ▸ hmem)
  have hfilters : ((l1 ++ it :: l2).enum.filter
      (fun p : ℕ × β => p.2 = it)).getLast? = some (l1.length, it) := by
    rw [List.enum_append, List.filter_append, List.enumFrom_cons,
      List.filter_cons_of_pos (by simp), h2]
    exact List.getLast?_concat _
  rw [hfilters]

/-- Claim C3, corrected. The position-weight map built by
`WSKNN._calculate_similarity` stores, for an item whose last occurrence in
the query session is at 0-based index `i` (last-write-wins), the weight
`session_weighting_fn(i + 1, L)` — not `session_weighting_fn(i, L)` as the
claim states — so with the linear weighting function the item receives
`(i + 2) / L` and the newest item receives `(L + 1) / L`, not `1.0`. -/
theorem claim_C3_theorem (wfn : ℕ → ℕ → ℚ) (l1 l2 : List β) (it : β)
    (hlast : it ∉ l2) :
    alookup (pos_weights_of wfn (l1 ++ it :: l2)) it
        = some (wfn (l1.length + 1) (l1 ++ it :: l2).length) ∧
      alookup (pos_weights_of linear_session_score (l1 ++ it :: l2)) it
        = some (((l1.length : ℚ) + 2) / ((l1 ++ it :: l2).length : ℚ)) := by
  refine ⟨pos_weights_last_occurrence wfn l1 l2 it hlast, ?_⟩
  rw [pos_weights_last_occurrence linear_session_score l1 l2 it hlast]
  unfold linear_session_score
  push_cast
  ring_nf

end ClaimC3PosWeights

section ClaimC3Concrete

attribute [local semireducible] Rat.add Rat.mul Rat.inv Rat.sub
  Rat.ofScientific

/-- Claim C3 counterexample: for the one-item query `[7]` with linear
weighting, the stored weight of item `7` is `2`, while the claim demands
`session_weighting_fn(0, 1) = 1`. -/
theorem claim_C3_counterexample :
    alookup (pos_weights_of linear_session_score ([7] : List ℤ)) 7 = some 2 ∧
      linear_session_score 0 1 = 1 ∧
      alookup (pos_weights_of linear_session_score ([7] : List ℤ)) 7
        ≠ some (linear_session_score 0 1) := by
  refine ⟨?_, ?_, ?_⟩ <;> decide

/-- Witness for claim C3's theorem: single-item query `[7]`, so the last
occurrence of item `7` is at index 0. -/
theorem claim_C3_witness :
    ((7 : ℤ) ∉ ([] : List ℤ)) ∧
      (alookup (pos_weights_of quadratic_session_score
            (([] : List ℤ) ++ 7 :: [])) 7
          = some (quadratic_session_score
              (List.length ([] : List ℤ) + 1) (([] : List ℤ) ++ 7 :: []).length) ∧
        alookup (pos_weights_of linear_session_score
            (([] : List ℤ) ++ 7 :: [])) 7
          = some (((List.length ([] : List ℤ) : ℚ) + 2)
              / (((([] : List ℤ) ++ 7 :: []).length : ℕ) : ℚ))) :=
  ⟨by decide, claim_C3_theorem quadratic_session_score [] [] 7 (by decide)⟩

end ClaimC3Concrete

/-! ## Claim C5: common_items sampling -/

section ClaimC5

variable {α β : Type} [DecidableEq α] [DecidableEq β]

/-- Claim C5. Under the `common_items` strategy the returned sample is the
prefix of the candidates sorted in ascending order of shared-item count:
its length is exactly `min(sample_size, pool size)`, sample and remainder
together are a permutation of the pool, and every selected session has a
shared-item count no larger than every unselected one (the least-overlap
sessions are selected). -/
theorem claim_C5_theorem (m : WSKNN α β) (sessions : List α)
    (session : SessionRec β) :
    (sampling_common m sessions session).length
        = min m.possible_neighbors_sample_size sessions.length ∧
      (sampling_common m sessions session
          ++ sampling_common_rest m sessions session).Perm sessions ∧
      ∀ a ∈ sampling_common m sessions session,
        ∀ b ∈ sampling_common_rest m sessions session,
          common_count m session a ≤ common_count m session b := by
  set cnt := common_count m session with hcnt
  set pairs := sessions.map (fun ses => (ses, cnt ses)) with hpairs
  set r := fun a b : α × ℕ => a.2 ≤ b.2 with hrdef
  haveI : IsTotal (α × ℕ) r := ⟨fun a b => le_total a.2 b.2⟩
  haveI : IsTrans (α × ℕ) r := ⟨fun a b c hab hbc => le_trans hab hbc⟩
  set sorted := pairs.insertionSort r with hsorteddef
  have hperm : sorted.Perm pairs := List.perm_insertionSort r pairs
  have hs : List.Sorted r sorted := List.sorted_insertionSort r pairs
  set k := min m.possible_neighbors_sample_size sessions.length with hk
  have hsample : sampling_common m sessions session
      = (sorted.map Prod.fst).take k := rfl
  have hrest : sampling_common_rest m sessions session
      = (sorted.map Prod.fst).drop k := rfl
  have hmapfst : pairs.map Prod.fst = sessions := by
    rw [hpairs, List.map_map]
    exact List.map_id sessions
  have hlenmap : (sorted.map Prod.fst).length = sessions.length := by
    rw [List.length_map, hperm.length_eq, hpairs, List.length_map]
  have hmem_pairs : ∀ x ∈ sorted, x.2 = cnt x.1 := by
    intro x hx
    have hxp : x ∈ pairs := hperm.mem_iff.mp hx
    rcases List.mem_map.mp hxp with ⟨ses, _, rfl⟩
    rfl
  refine ⟨?_, ?_, ?_⟩
  · rw [hsample, List.length_take, hlenmap]
    exact min_eq_left (min_le_right _ _)
  · rw [hsample, hrest, List.take_append_drop]
    exact (hperm.map Prod.fst).trans (hmapfst ▸ List.Perm.refl _)
  · intro a ha b hb
    rw [hsample, ← List.map_take] at ha
    rw [hrest, ← List.map_drop] at hb
    rcases List.mem_map.mp ha with ⟨x, hx, rfl⟩
    rcases List.mem_map.mp hb with ⟨y, hy, rfl⟩
    have hpw : List.Pairwise r (sorted.take k ++ sorted.drop k) := by
      rw [List.take_append_drop]
      exact hs
    have hxy : r x y := (List.pairwise_append.mp hpw).2.2 x hx y hy
    have hxs : x ∈ sorted := (List.take_sublist k sorted).subset hx
    have hys : y ∈ sorted := (List.drop_sublist k sorted).subset hy
    have hx2 := hmem_pairs x hxs
    have hy2 := hmem_pairs y hys
    rw [← hx2, ← hy2]
    exact hxy

end ClaimC5

/-- Witness for claim C5: `claim_C5_theorem` has no hypotheses, but we
record its instantiation on the reference model and a concrete pool. -/
theorem claim_C5_witness :
    (sampling_common exampleModel ["a", "b"] ⟨[2, 3], [200, 300], [], []⟩).length
        = min exampleModel.possible_neighbors_sample_size 2 ∧
      (sampling_common exampleModel ["a", "b"] ⟨[2, 3], [200, 300], [], []⟩
          ++ sampling_common_rest exampleModel ["a", "b"]
            ⟨[2, 3], [200, 300], [], []⟩).Perm ["a", "b"] ∧
      ∀ a ∈ sampling_common exampleModel ["a", "b"] ⟨[2, 3], [200, 300], [], []⟩,
        ∀ b ∈ sampling_common_rest exampleModel ["a", "b"]
            ⟨[2, 3], [200, 300], [], []⟩,
          common_count exampleModel ⟨[2, 3], [200, 300], [], []⟩ a
            ≤ common_count exampleModel ⟨[2, 3], [200, 300], [], []⟩ b :=
  claim_C5_theorem exampleModel ["a", "b"] ⟨[2, 3], [200, 300], [], []⟩

/-! ## Claim C6: the inverted-index round trip

The derivation `map_sessions_to_items` is characterized entry-wise: an
item's entry pairs every session containing the item, exactly once, with
the running minimum of the item's occurrence timestamps in that session.
-/

section ClaimC6Basics

variable {κ τ : Type} [DecidableEq κ]

theorem alookup_eq_none_iff (l : List (κ × τ)) (k : κ) :
    alookup l k = none ↔ k ∉ l.map Prod.fst := by
  induction l with
  | nil => simp [alookup]
  | cons p rest ih =>
    rw [alookup]
    by_cases hp : p.1 = k
    · simp [hp]
    · rw [if_neg hp, ih]
      simp only [List.map_cons, List.mem_cons]
      constructor
      · intro h hk
        rcases hk with hk | hk
        · exact hp hk.symm
        · exact h hk
      · intro h hk
        exact h (Or.inr hk)

theorem alookup_append (l l2 : List (κ × τ)) (k : κ) :
    alookup (l ++ l2) k
      = match alookup l k with
        | some v => some v
        | none => alookup l2 k := by
  induction l with
  | nil => simp [alookup]
  | cons p rest ih =>
    by_cases hp : p.1 = k
    · simp [alookup, hp]
    · simp [alookup, hp, ih]

theorem alookup_some_mem {l : List (κ × τ)} {k : κ} {v : τ}
    (h : alookup l k = some v) : (k, v) ∈ l := by
  induction l with
  | nil => simp [alookup] at h
  | cons p rest ih =>
    by_cases hp : p.1 = k
    · rw [alookup, if_pos hp] at h
      subst hp
      obtain rfl : p.2 = v := by injection h
      simp
    · rw [alookup, if_neg hp] at h
      exact List.mem_cons_of_mem p (ih h)

theorem map_fst_aupdate_mem (l : List (κ × τ)) (k : κ) (v : τ)
    (h : k ∈ l.map Prod.fst) :
    (aupdate l k v).map Prod.fst = l.map Prod.fst := by
  induction l with
  | nil => simp at h
  | cons p rest ih =>
    by_cases hp : p.1 = k
    · simp [aupdate, hp]
    · have hrest : k ∈ rest.map Prod.fst := by
        rcases List.mem_map.mp h with ⟨q, hq, hqk⟩
        rw [List.mem_cons] at hq
        rcases hq with hq | hq
        · exact absurd (hq ▸ hqk) hp
        · exact List.mem_map.mpr ⟨q, hq, hqk⟩
      simp [aupdate, hp, ih hrest]

theorem mem_aupdate {l : List (κ × τ)} {k : κ} {v : τ} {e : κ × τ}
    (h : e ∈ aupdate l k v) : e ∈ l ∨ e = (k, v) := by
  induction l with
  | nil => simp [aupdate] at h; right; exact h
  | cons p rest ih =>
    by_cases hp : p.1 = k
    · rw [aupdate, if_pos hp] at h
      rw [List.mem_cons] at h
      rcases h with h | h
      · right; exact h
      · left; exact List.mem_cons_of_mem p h
    · rw [aupdate, if_neg hp] at h
      rw [List.mem_cons] at h
      rcases h with h | h
      · left; exact h ▸ List.mem_cons_self p rest
      · rcases ih h with h2 | h2
        · left; exact List.mem_cons_of_mem p h2
        · right; exact h2

theorem aidxOf_lt_length_of_mem {l : List κ} {k : κ} (h : k ∈ l) :
    aidxOf l k < l.length := by
  induction l with
  | nil => simp at h
  | cons x xs ih =>
    by_cases hx : x = k
    · simp [aidxOf, hx]
    · rw [List.mem_cons] at h
      rcases h with h | h
      · exact absurd h.symm hx
      · simpa [aidxOf, hx] using ih h

theorem aidxOf_append_not_mem {l : List κ} {k : κ} (h : k ∉ l) :
    aidxOf (l ++ [k]) k = l.length := by
  induction l with
  | nil => simp [aidxOf]
  | cons x xs ih =>
    have hx : x ≠ k := fun hxk => h (hxk ▸ List.mem_cons_self x xs)
    have hxs : k ∉ xs := fun hk => h (List.mem_cons_of_mem x hk)
    simp [aidxOf, hx, ih hxs]

theorem getD_append_length {l : List τ} {t d : τ} :
    (l ++ [t]).getD l.length d = t := by
  induction l with
  | nil => rfl
  | cons x xs ih => simp [List.getD, ih]

theorem set_append_length {l : List τ} {t v : τ} :
    (l ++ [t]).set l.length v = l ++ [v] := by
  induction l with
  | nil => rfl
  | cons x xs ih => simp [List.set, ih]

theorem getD_set_self {l : List τ} {j : ℕ} {v d : τ} (h : j < l.length) :
    (l.set j v).getD j d = v := by
  rw [List.getD_eq_getElem?_getD, List.getElem?_set_self (by simpa using h)]
  rfl

theorem set_getD_self {l : List τ} {j : ℕ} {d : τ} (h : j < l.length) :
    l.set j (l.getD j d) = l := by
  induction l generalizing j with
  | nil => simp at h
  | cons x xs ih =>
    cases j with
    | zero => rfl
    | succ j2 => simpa [List.set, List.getD] using ih (Nat.lt_of_succ_lt_succ h)

theorem alookup_map_value {σ : Type} (l : List (κ × τ)) (g : τ → σ) (k : κ) :
    alookup (l.map (fun e => (e.1, g e.2))) k = (alookup l k).map g := by
  induction l with
  | nil => simp [alookup]
  | cons p rest ih =>
    by_cases hp : p.1 = k
    · simp [alookup, hp]
    · simp [alookup, hp, ih]

end ClaimC6Basics

section ClaimC6OccMin

variable {β : Type} [DecidableEq β]



theorem occ_min_eq_none_iff (it : β) (pairs : List (β × ℚ)) :
    occ_min it pairs = none ↔ ∀ p ∈ pairs, p.1 ≠ it := by
  induction pairs with
  | nil => simp [occ_min]
  | cons p rest ih =>
    by_cases hp : p.1 = it
    · rw [occ_min, if_pos hp]
      cases occ_min it rest <;> simp [hp]
    · rw [occ_min, if_neg hp]
      simp [hp, ih]

theorem occ_min_spec (it : β) (pairs : List (β × ℚ)) (mn : ℚ)
    (h : occ_min it pairs = some mn) :
    mn ∈ occ_list it pairs ∧ ∀ u ∈ occ_list it pairs, mn ≤ u := by
  induction pairs generalizing mn with
  | nil => simp [occ_min] at h
  | cons p rest ih =>
    by_cases hp : p.1 = it
    · rw [occ_min, if_pos hp] at h
      have hol : occ_list it (p :: rest) = p.2 :: occ_list it rest := by
        simp [occ_list, List.filterMap_cons, hp]
      cases hrest : occ_min it rest with
      | none =>
        rw [hrest] at h
        obtain rfl : p.2 = mn := by injection h
        have hnil : occ_list it rest = [] := by
          rw [occ_list, List.filterMap_eq_nil_iff]
          intro q hq
          simp [(occ_min_eq_none_iff it rest).mp hrest q hq]
        rw [hol, hnil]
        simp
      | some c =>
        rw [hrest] at h
        obtain rfl : min p.2 c = mn := by injection h
        obtain ⟨hc1, hc2⟩ := ih c hrest
        rw [hol]
        constructor
        · rcases le_total p.2 c with hle | hle
          · simp [min_eq_left hle]
          · right
            rw [min_eq_right hle]
            exact hc1
        · intro u hu
          rw [List.mem_cons] at hu
          rcases hu with hu | hu
          · simp [hu, min_le_left]
          · exact le_trans (min_le_right _ _) (hc2 u hu)
    · rw [occ_min, if_neg hp] at h
      have hol : occ_list it (p :: rest) = occ_list it rest := by
        simp [occ_list, List.filterMap_cons, hp]
      rw [hol]
      exact ih mn h

end ClaimC6OccMin

section ClaimC6Process

variable {α β : Type} [DecidableEq α] [DecidableEq β]



theorem alookup_insert_occurrence_ne (imap : List (β × (List α × List ℚ)))
    (sk : α) (b : β) (t : ℚ) (it : β) (hne : b ≠ it) :
    alookup (insert_occurrence imap sk b t) it = alookup imap it := by
  unfold insert_occurrence
  cases hb : alookup imap b with
  | none =>
    rw [alookup_append]
    cases hit : alookup imap it <;> simp [alookup, hne]
  | some e =>
    obtain ⟨ss, tss⟩ := e
    dsimp only
    split_ifs with h1 h2
    · exact alookup_aupdate_ne _ _ _ _ hne
    · rfl
    · exact alookup_aupdate_ne _ _ _ _ hne

theorem alookup_insert_occurrence_self
    (imap : List (β × (List α × List ℚ))) (sk : α) (b : β) (t : ℚ)
    (hwf : WfMap imap) :
    alookup (insert_occurrence imap sk b t) b =
      match alookup imap b with
      | none => some ([sk], [t])
      | some (ss, tss) =>
        if sk ∈ ss then
          some (ss, tss.set (aidxOf ss sk)
            (min (tss.getD (aidxOf ss sk) 0) t))
        else some (ss ++ [sk], tss ++ [t]) := by
  unfold insert_occurrence
  cases hb : alookup imap b with
  | none =>
    rw [alookup_append, hb]
    simp [alookup]
  | some e =>
    obtain ⟨ss, tss⟩ := e
    dsimp only
    by_cases hsk : sk ∈ ss
    · rw [if_pos hsk, if_pos hsk]
      have hj : aidxOf ss sk < tss.length := by
        rw [hwf b ss tss hb]
        exact aidxOf_lt_length_of_mem hsk
      by_cases hts : t < tss.getD (aidxOf ss sk) 0
      · rw [if_pos hts, alookup_aupdate_self,
          min_eq_right (le_of_lt hts)]
      · rw [if_neg hts, hb, min_eq_left (le_of_not_lt hts),
          set_getD_self hj]
    · rw [if_neg hsk, if_neg hsk, alookup_aupdate_self]

theorem wf_insert_occurrence {imap : List (β × (List α × List ℚ))}
    {sk : α} {b : β} {t : ℚ} (hwf : WfMap imap) :
    WfMap (insert_occurrence imap sk b t) := by
  intro it ss tss h
  by_cases hb : b = it
  · subst hb
    rw [alookup_insert_occurrence_self imap sk b t hwf] at h
    cases hlook : alookup imap b with
    | none =>
      rw [hlook] at h
      dsimp only at h
      injection h with h2
      rw [Prod.mk.injEq] at h2
      obtain ⟨h3, h4⟩ := h2
      rw [← h3, ← h4]
      rfl
    | some e =>
      obtain ⟨ss0, tss0⟩ := e
      rw [hlook] at h
      dsimp only at h
      have hlen0 := hwf b ss0 tss0 hlook
      split_ifs at h with hsk
      · injection h with h2
        rw [Prod.mk.injEq] at h2
        obtain ⟨h3, h4⟩ := h2
        rw [← h3, ← h4, List.length_set, hlen0]
      · injection h with h2
        rw [Prod.mk.injEq] at h2
        obtain ⟨h3, h4⟩ := h2
        rw [← h3, ← h4, List.length_append, List.length_append, hlen0]
        rfl
  · rw [alookup_insert_occurrence_ne imap sk b t it hb] at h
    exact hwf it ss tss h

/-- Characterization of one session's processing: the entry of `it` after
`process_session` extends the prior entry by the running minimum of the
session's occurrence timestamps of `it` (appending the session, or
min-merging when `sk` is already recorded). -/
theorem alookup_process_session (sk : α) (pairs : List (β × ℚ))
    (imap : List (β × (List α × List ℚ))) (it : β) (hwf : WfMap imap) :
    alookup (process_session imap sk pairs) it =
      match alookup imap it, occ_min it pairs with
      | none, none => none
      | some e, none => some e
      | none, some mn => some ([sk], [mn])
      | some (ss, tss), some mn =>
        if sk ∈ ss then
          some (ss, tss.set (aidxOf ss sk)
            (min (tss.getD (aidxOf ss sk) 0) mn))
        else some (ss ++ [sk], tss ++ [mn]) := by
  induction pairs generalizing imap with
  | nil =>
    rw [show process_session imap sk [] = imap from rfl]
    cases h : alookup imap it with
    | none => rfl
    | some e => obtain ⟨ss, tss⟩ := e; rfl
  | cons p rest ih =>
    obtain ⟨b, t⟩ := p
    have hstep : process_session imap sk ((b, t) :: rest)
        = process_session (insert_occurrence imap sk b t) sk rest := rfl
    rw [hstep, ih (insert_occurrence imap sk b t) (wf_insert_occurrence hwf)]
    by_cases hb : b = it
    · subst hb
      rw [alookup_insert_occurrence_self imap sk b t hwf]
      rw [show occ_min b ((b, t) :: rest)
          = (match occ_min b rest with
            | none => some t
            | some c => some (min t c)) from by rw [occ_min, if_pos rfl]]
      cases hlook : alookup imap b with
      | none =>
        cases hrest : occ_min b rest with
        | none => simp [aidxOf]
        | some c =>
          dsimp only
          rw [if_pos (List.mem_singleton_self sk)]
          simp [aidxOf, List.getD, List.set]
      | some e =>
        obtain ⟨ss, tss⟩ := e
        have hlen := hwf b ss tss hlook
        dsimp only
        by_cases hsk : sk ∈ ss
        · rw [if_pos hsk]
          cases hrest : occ_min b rest with
          | none =>
            dsimp only
            rw [if_pos hsk]
          | some c =>
            dsimp only
            rw [if_pos hsk]
            have hj : aidxOf ss sk < tss.length := by
              rw [hlen]; exact aidxOf_lt_length_of_mem hsk
            rw [getD_set_self hj, List.set_set, min_assoc, if_pos hsk]
        · rw [if_neg hsk]
          cases hrest : occ_min b rest with
          | none =>
            dsimp only
            rw [if_neg hsk]
          | some c =>
            dsimp only
            have hskmem : sk ∈ ss ++ [sk] :=
              List.mem_append_right ss (List.mem_singleton_self sk)
            rw [if_pos hskmem, aidxOf_append_not_mem hsk]
            have hg : (tss ++ [t]).getD ss.length 0 = t := by
              rw [← hlen]; exact getD_append_length
            have hset : (tss ++ [t]).set ss.length (min t c)
                = tss ++ [min t c] := by
              rw [← hlen]; exact set_append_length
            rw [hg, hset, if_neg hsk]
    · rw [alookup_insert_occurrence_ne imap sk b t it hb]
      rw [show occ_min it ((b, t) :: rest) = occ_min it rest from by
        rw [occ_min, if_neg hb]]

theorem wf_process_session {imap : List (β × (List α × List ℚ))} {sk : α}
    (pairs : List (β × ℚ)) (hwf : WfMap imap) :
    WfMap (process_session imap sk pairs) := by
  induction pairs generalizing imap with
  | nil => exact hwf
  | cons p rest ih =>
    exact ih (wf_insert_occurrence hwf)

theorem fresh_process_session {s2 sk : α}
    {imap : List (β × (List α × List ℚ))} (pairs : List (β × ℚ))
    (hwf : WfMap imap) (hne : s2 ≠ sk) (hfresh : FreshIn s2 imap) :
    FreshIn s2 (process_session imap sk pairs) := by
  intro it ss tss h
  rw [alookup_process_session sk pairs imap it hwf] at h
  cases hlook : alookup imap it with
  | none =>
    rw [hlook] at h
    cases hrest : occ_min it pairs with
    | none => rw [hrest] at h; exact absurd h (by simp)
    | some mn =>
      rw [hrest] at h
      injection h with h2
      rw [Prod.mk.injEq] at h2
      obtain ⟨h3, h4⟩ := h2
      rw [← h3]
      simp [hne]
  | some e =>
    obtain ⟨ss0, tss0⟩ := e
    rw [hlook] at h
    have hf := hfresh it ss0 tss0 hlook
    cases hrest : occ_min it pairs with
    | none =>
      rw [hrest] at h
      injection h with h2
      rw [Prod.mk.injEq] at h2
      obtain ⟨h3, h4⟩ := h2
      rw [← h3]
      exact hf
    | some mn =>
      rw [hrest] at h
      dsimp only at h
      split_ifs at h with hsk
      · injection h with h2
        rw [Prod.mk.injEq] at h2
        obtain ⟨h3, h4⟩ := h2
        rw [← h3]
        exact hf
      · injection h with h2
        rw [Prod.mk.injEq] at h2
        obtain ⟨h3, h4⟩ := h2
        rw [← h3]
        simp [hf, hne]


omit [DecidableEq α] in
theorem entry_extend_some (ss : List α) (tss : List ℚ)
    (es : List (α × ℚ)) :
    entry_extend (some (ss, tss)) es
      = some (ss ++ es.map Prod.fst, tss ++ es.map Prod.snd) := by
  cases es <;> rfl

/-- Characterization of the whole building fold of
`map_sessions_to_items`: the entry of `it` is the prior entry extended by
the per-session summaries of the processed sessions. -/
theorem alookup_build (S : List (α × SessionRec β))
    (imap : List (β × (List α × List ℚ))) (it : β)
    (hwf : WfMap imap)
    (hkeys : (S.map Prod.fst).Nodup)
    (hfresh : ∀ p ∈ S, FreshIn p.1 imap) :
    alookup (S.foldl (fun acc p =>
        process_session acc p.1 (p.2.items.zip p.2.timestamps)) imap) it
      = entry_extend (alookup imap it) (session_entries it S) := by
  induction S generalizing imap with
  | nil =>
    rw [List.foldl_nil, show session_entries it ([] : List (α × SessionRec β))
      = [] from rfl]
    cases h : alookup imap it with
    | none => rfl
    | some e =>
      obtain ⟨ss, tss⟩ := e
      rw [entry_extend_some]
      simp
  | cons p rest ih =>
    rw [List.foldl_cons]
    have hkeys2 : (rest.map Prod.fst).Nodup := (List.nodup_cons.mp
      (by simpa using hkeys)).2
    have hphead : p.1 ∉ rest.map Prod.fst := (List.nodup_cons.mp
      (by simpa using hkeys)).1
    have hwf2 : WfMap (process_session imap p.1
        (p.2.items.zip p.2.timestamps)) :=
      wf_process_session _ hwf
    have hfresh2 : ∀ q ∈ rest, FreshIn q.1 (process_session imap p.1
        (p.2.items.zip p.2.timestamps)) := by
      intro q hq
      have hqne : q.1 ≠ p.1 := by
        intro hcontra
        exact hphead (hcontra ▸ List.mem_map.mpr ⟨q, hq, rfl⟩)
      exact fresh_process_session _ hwf hqne
        (hfresh q (List.mem_cons_of_mem p hq))
    rw [ih _ hwf2 hkeys2 hfresh2]
    rw [alookup_process_session p.1 _ imap it hwf]
    have hentries : session_entries it (p :: rest)
        = match occ_min it (p.2.items.zip p.2.timestamps) with
          | some mn => (p.1, mn) :: session_entries it rest
          | none => session_entries it rest := by
      rw [session_entries, List.filterMap_cons]
      cases occ_min it (p.2.items.zip p.2.timestamps) <;> rfl
    rw [hentries]
    cases hlook : alookup imap it with
    | none =>
      cases hocc : occ_min it (p.2.items.zip p.2.timestamps) with
      | none => rfl
      | some mn =>
        rw [entry_extend_some]
        rfl
    | some e =>
      obtain ⟨ss, tss⟩ := e
      cases hocc : occ_min it (p.2.items.zip p.2.timestamps) with
      | none => dsimp only
      | some mn =>
        have hf : p.1 ∉ ss :=
          hfresh p (List.mem_cons_self p rest) it ss tss hlook
        dsimp only
        rw [if_neg hf, entry_extend_some, entry_extend_some]
        simp [List.append_assoc]

theorem occ_min_isSome_of_mem {it : β} {items : List β} {ts : List ℚ}
    (hl : items.length ≤ ts.length) (hit : it ∈ items) :
    ∃ mn, occ_min it (items.zip ts) = some mn := by
  cases h : occ_min it (items.zip ts) with
  | some mn => exact ⟨mn, rfl⟩
  | none =>
    exfalso
    have hall := (occ_min_eq_none_iff it (items.zip ts)).mp h
    have hmem : it ∈ (items.zip ts).map Prod.fst := by
      rw [List.map_fst_zip items ts hl]
      exact hit
    rcases List.mem_map.mp hmem with ⟨q, hq, hq1⟩
    exact hall q hq hq1

omit [DecidableEq α] [DecidableEq β] in
theorem map_fst_filterMap_sublist {σ : Type}
    (f : (α × SessionRec β) → Option (α × σ))
    (hf : ∀ p q, f p = some q → q.1 = p.1) (S : List (α × SessionRec β)) :
    ((S.filterMap f).map Prod.fst).Sublist (S.map Prod.fst) := by
  induction S with
  | nil => simp
  | cons p rest ih =>
    rw [List.filterMap_cons]
    cases hfp : f p with
    | none => exact ih.cons p.1
    | some q =>
      rw [List.map_cons, List.map_cons, hf p q hfp]
      exact ih.cons₂ p.1

omit [DecidableEq α] in
/-- Every per-session summary comes from a session of the map. -/
theorem session_entries_mem {it : β} {S : List (α × SessionRec β)}
    {q : α × ℚ} (hq : q ∈ session_entries it S) :
    ∃ p ∈ S, q.1 = p.1
      ∧ occ_min it (p.2.items.zip p.2.timestamps) = some q.2 := by
  rcases List.mem_filterMap.mp hq with ⟨p, hp, hfp⟩
  cases hocc : occ_min it (p.2.items.zip p.2.timestamps) with
  | none => rw [hocc] at hfp; exact absurd hfp (by simp)
  | some mn =>
    rw [hocc] at hfp
    injection hfp with h2
    rw [← h2]
    exact ⟨p, hp, rfl, by simp [hocc]⟩

end ClaimC6Process

section ClaimC6Main

variable {α β : Type} [DecidableEq α] [DecidableEq β]

/-- Claim C6. Deriving the Item-Session Index from a Session-Item Index
(`map_sessions_to_items`, with the default per-entry timestamp sorting)
and looking up any item that occurs in any session yields an entry that
pairs every session containing the item exactly once with the minimum
timestamp over that item's occurrences in that session. -/
theorem claim_C6_theorem (S : List (α × SessionRec β))
    (hlen : ∀ p ∈ S, p.2.timestamps.length = p.2.items.length)
    (hkeys : (S.map Prod.fst).Nodup)
    (it : β) (hit : ∃ p ∈ S, it ∈ p.2.items) :
    ∃ ss tss,
      alookup (map_sessions_to_items S true) it = some (ss, tss) ∧
      tss.length = ss.length ∧
      ss.Nodup ∧
      (∀ sk, sk ∈ ss ↔ ∃ p ∈ S, p.1 = sk ∧ it ∈ p.2.items) ∧
      (∀ q ∈ ss.zip tss, ∃ rec, (q.1, rec) ∈ S ∧
        q.2 ∈ occ_timestamps it rec ∧
        ∀ u ∈ occ_timestamps it rec, q.2 ≤ u) := by
  have hwfnil : WfMap ([] : List (β × (List α × List ℚ))) := by
    intro i ss tss h
    simp [alookup] at h
  have hbuild := alookup_build S [] it hwfnil hkeys
    (fun p _ i ss tss h => by simp [alookup] at h)
  rw [show map_sessions_to_items S true
      = ((S.foldl (fun acc p =>
          process_session acc p.1 (p.2.items.zip p.2.timestamps)) []).map
        (fun e => (e.1, sort_together e.2))) from rfl]
  rw [alookup_map_value, hbuild]
  rw [show alookup ([] : List (β × (List α × List ℚ))) it = none from rfl]
  set E := session_entries it S with hE
  have hE_ne : E ≠ [] := by
    rcases hit with ⟨p, hp, hitems⟩
    have hl : p.2.items.length ≤ p.2.timestamps.length :=
      le_of_eq (hlen p hp).symm
    rcases occ_min_isSome_of_mem hl hitems with ⟨mn, hmn⟩
    have : (p.1, mn) ∈ E := by
      rw [hE, session_entries]
      exact List.mem_filterMap.mpr ⟨p, hp, by rw [hmn]; rfl⟩
    exact List.ne_nil_of_mem this
  obtain ⟨e0, es0, hEcons⟩ := List.exists_cons_of_ne_nil hE_ne
  rw [hEcons]
  rw [show entry_extend none ((e0 :: es0) : List (α × ℚ))
      = some ((e0 :: es0).map Prod.fst, (e0 :: es0).map Prod.snd) from rfl]
  rw [← hEcons]
  set z := ((E.map Prod.fst).zip (E.map Prod.snd)).insertionSort
    (fun a b => a.2 ≤ b.2) with hzdef
  have hzip_eq : (E.map Prod.fst).zip (E.map Prod.snd) = E := by
    rw [List.zip_map']
    simp
  have hz_perm : z.Perm E := by
    rw [hzdef, hzip_eq]
    exact List.perm_insertionSort _ E
  refine ⟨z.map Prod.fst, z.map Prod.snd, ?_, ?_, ?_, ?_, ?_⟩
  · rfl
  · rw [List.length_map, List.length_map]
  · have hEfst : (E.map Prod.fst).Nodup := by
      apply List.Nodup.sublist ?_ hkeys
      rw [hE, session_entries]
      exact map_fst_filterMap_sublist _ (fun p q hq => by
        cases hocc : occ_min it (p.2.items.zip p.2.timestamps) with
        | none => rw [hocc] at hq; exact absurd hq (by simp)
        | some mn => rw [hocc] at hq; injection hq with h2; rw [← h2]) S
    exact ((hz_perm.map Prod.fst).nodup_iff).mpr hEfst
  · intro sk
    rw [(hz_perm.map Prod.fst).mem_iff]
    constructor
    · intro hsk
      rcases List.mem_map.mp hsk with ⟨q, hq, hq1⟩
      rcases session_entries_mem (hE ▸ hq) with ⟨p, hp, hqp, hocc⟩
      refine ⟨p, hp, by rw [← hq1, hqp], ?_⟩
      have hsome : occ_min it (p.2.items.zip p.2.timestamps) ≠ none := by
        rw [hocc]; simp
      rcases Option.ne_none_iff_exists.mp hsome with ⟨mn, hmn⟩
      obtain ⟨hmem, _⟩ := occ_min_spec it _ mn hmn.symm
      rcases List.mem_filterMap.mp hmem with ⟨pr, hpr, hprf⟩
      have hpr1 : pr.1 = it := by
        by_cases hcase : pr.1 = it
        · exact hcase
        · rw [if_neg hcase] at hprf; exact absurd hprf (by simp)
      exact hpr1 ▸ (List.of_mem_zip hpr).1
    · intro hsk
      rcases hsk with ⟨p, hp, hp1, hitems⟩
      have hl : p.2.items.length ≤ p.2.timestamps.length :=
        le_of_eq (hlen p hp).symm
      rcases occ_min_isSome_of_mem hl hitems with ⟨mn, hmn⟩
      apply List.mem_map.mpr
      refine ⟨(p.1, mn), ?_, hp1⟩
      rw [hE, session_entries]
      exact List.mem_filterMap.mpr ⟨p, hp, by rw [hmn]; rfl⟩
  · intro q hq
    have hq_z : q ∈ z := by
      have : (z.map Prod.fst).zip (z.map Prod.snd) = z := by
        rw [List.zip_map']
        simp
      rw [← this]
      exact hq
    have hq_E : q ∈ E := hz_perm.mem_iff.mp hq_z
    rcases session_entries_mem (hE ▸ hq_E) with ⟨p, hp, hqp, hocc⟩
    obtain ⟨hmem, hmin⟩ := occ_min_spec it _ q.2 hocc
    refine ⟨p.2, ?_, hmem, hmin⟩
    rw [hqp]
    simpa using hp

end ClaimC6Main

section ClaimC6Concrete

attribute [local semireducible] Rat.add Rat.mul Rat.inv Rat.sub
  Rat.ofScientific

/-- Witness for claim C6's theorem: the reference sessions map and item
`2`, which occurs in both sessions. -/
theorem claim_C6_witness :
    (∀ p ∈ exampleSessions, p.2.timestamps.length = p.2.items.length) ∧
      (exampleSessions.map Prod.fst).Nodup ∧
      (∃ p ∈ exampleSessions, (2 : ℤ) ∈ p.2.items) ∧
      ∃ ss tss,
        alookup (map_sessions_to_items exampleSessions true) (2 : ℤ)
          = some (ss, tss) ∧
        tss.length = ss.length ∧
        ss.Nodup ∧
        (∀ sk, sk ∈ ss ↔ ∃ p ∈ exampleSessions,
          p.1 = sk ∧ (2 : ℤ) ∈ p.2.items) ∧
        (∀ q ∈ ss.zip tss, ∃ rec, (q.1, rec) ∈ exampleSessions ∧
          q.2 ∈ occ_timestamps 2 rec ∧
          ∀ u ∈ occ_timestamps 2 rec, q.2 ≤ u) :=
  ⟨by decide, by decide, by decide,
    claim_C6_theorem exampleSessions (by decide) (by decide) 2 (by decide)⟩

end ClaimC6Concrete

/-- Witness for claim C10's theorem: the reference model with a query for
an item absent from the Item-Session Index, which yields zero neighbors. -/
theorem claim_C10_witness :
    exampleModel.recommend_any = false ∧
      nearest_neighbors exampleModel ⟨[100], [1], [], []⟩ = [] ∧
      predict exampleModel ⟨[100], [1], [], []⟩ = none :=
  ⟨rfl, by decide,
    claim_C10_theorem exampleModel ⟨[100], [1], [], []⟩ rfl (by decide)⟩



/-- Claim C7. `fit` is atomic: if any validation error is raised (at any
of the three validation steps, for any sampled keys), the stored maps
retain exactly their prior values; if no error is raised, both maps are
replaced — `session_item_map` by the given sessions map, and
`item_session_map` by the supplied items map (when given) or the derived
one (when omitted). -/
theorem claim_C7_theorem (st : FitState) (sessions : PyMap)
    (items : Option PyMap) (c1 c2 c3 c4 : ℕ) :
    (∀ e, (fit_run st sessions items c1 c2 c3 c4).1 = Except.error e →
      (fit_run st sessions items c1 c2 c3 c4).2 = st) ∧
    ((fit_run st sessions items c1 c2 c3 c4).1 = Except.ok () →
      (fit_run st sessions items c1 c2 c3 c4).2.session_item_map
          = some sessions ∧
      ∃ its, (fit_run st sessions items c1 c2 c3 c4).2.item_session_map
          = some its ∧
        (∀ its0, items = some its0 → its = its0) ∧
        (items = none → map_sessions_to_items_tagged sessions
          = Except.ok its)) := by
  unfold fit_run
  cases check_map_input sessions c1 with
  | error e1 => exact ⟨fun e _ => rfl, fun hok => absurd hok (by simp)⟩
  | ok u1 =>
    dsimp only
    cases hder : fit_items_step sessions items c2 c3 with
    | error e2 => exact ⟨fun e _ => rfl, fun hok => absurd hok (by simp)⟩
    | ok its =>
      dsimp only
      cases check_map_input its c4 with
      | error e3 => exact ⟨fun e _ => rfl, fun hok => absurd hok (by simp)⟩
      | ok u2 =>
        refine ⟨fun e he => absurd he (by simp), fun _ => ⟨rfl, its, rfl, ?_, ?_⟩⟩
        · intro its0 hits0
          rw [hits0] at hder
          unfold fit_items_step at hder
          dsimp only at hder
          cases hval : validate_mapping_dtypes sessions its0 c2 c3 with
          | error e4 => rw [hval] at hder; exact absurd hder (by simp)
          | ok u3 =>
            rw [hval] at hder
            injection hder with h2
            exact h2.symm
        · intro hnone
          rw [hnone] at hder
          exact hder



/-- Witness for claim C7's theorem: a sessions map whose sampled record
has a single nested sequence raises the dimension error and leaves the
(empty) prior state untouched. -/
theorem claim_C7_witness :
    (fit_run ⟨none, none⟩ [(PyVal.vStr "A", [PyObj.seq [PyVal.vInt 1]])]
        none 0 0 0 0).1 = Except.error PyErr.dimensionError ∧
      (fit_run ⟨none, none⟩ [(PyVal.vStr "A", [PyObj.seq [PyVal.vInt 1]])]
        none 0 0 0 0).2 = ⟨none, none⟩ :=
  ⟨by decide,
    (claim_C7_theorem ⟨none, none⟩
      [(PyVal.vStr "A", [PyObj.seq [PyVal.vInt 1]])] none 0 0 0 0).1
      PyErr.dimensionError (by decide)⟩

end Wsknn
